import Mathlib

set_option maxHeartbeats 1000000
set_option linter.unusedSectionVars false

/-! Shallow embedding of the emergency-call-optimizer repository
(src/main.go) together with proofs about it.

Modelling conventions, chosen once for the whole file:

* Go float64 values are embedded as elements of an arbitrary linearly
  ordered commutative ring α: every float64 value the program can
  meaningfully hold is a dyadic rational, ℚ is an instance, and the only
  operations the program performs on distances and weights are ring
  operations and order comparisons, so each theorem quantified over α
  covers the exact rational semantics; concrete witnesses instantiate
  α := ℤ.  The source computes Euclidean distances with math.Sqrt; every
  place the program uses a distance it either compares two distances or
  stores the value as an edge weight, and the square root is strictly
  monotone on nonnegative reals, so distances are embedded as the squared
  Euclidean distance (CalculateDistanceSq below): every comparison, hence
  the whole control flow, agrees with the source.  math.MaxFloat64 and
  math.Inf(1), used only as sentinels no real distance reaches, are both
  embedded as the top element of WithTop α.
* Go maps are embedded as association lists: lookup returns the first
  hit, insertion overwrites the first hit or appends.  Go map iteration
  order, which Go leaves unspecified, is fixed to list order; the popped
  element of the container/heap priority queue, whose tie order Go also
  leaves unspecified, is fixed to the first element of minimal priority.
* Loops that are not structurally recursive (the Dijkstra main loop and
  the ReconstructPath walk, which for arbitrary inputs need not
  terminate in Go) take an explicit fuel argument counting loop
  iterations; returning none means the fuel ran out.
-/

/-- Error taxonomy of the program, one constructor per distinct failure
(spec section 7).  The Go source returns error values built from strings;
the string contents are not modelled.  FuelExhausted is an artifact of the
fuel-bounded embedding of the Dijkstra loop and corresponds to no Go
behaviour. -/
inductive Err where
  | InvalidEntity
  | EmptyCandidateSet
  | InvalidCount
  | InsufficientCandidates
  | UnknownStartNode
  | NoPathFound
  | FuelExhausted
deriving DecidableEq

deriving instance DecidableEq for Except

/-- String literals used by concrete inputs (kept in their own
definitions). -/
def sEmpty : String := ""

def sA : String := "A"

def sB : String := "B"

def sC : String := "C"

def sS : String := "S"

/-- Point represents a 2D coordinate (float64 fields, see the module
comment for the embedding of float64). -/
structure Point (α : Type) where
  x : α
  y : α
deriving DecidableEq

/-- TelecomSite from src/main.go. -/
structure TelecomSite (α : Type) where
  ID : String
  Location : Point α
deriving DecidableEq

/-- Hub from src/main.go. -/
structure Hub (α : Type) where
  ID : String
  Location : Point α
deriving DecidableEq

/-- EmergencyCenter from src/main.go. -/
structure EmergencyCenter (α : Type) where
  ID : String
  Location : Point α
deriving DecidableEq

variable {α : Type} [LinearOrderedCommRing α]

/-- Validity test of TelecomSite.Validate: the Go method returns an error
exactly when the ID is empty or the location is the zero value Point{}. -/
def TelecomSite.ValidateOk (site : TelecomSite α) : Prop :=
  ¬(site.ID = sEmpty ∨ site.Location = ⟨0, 0⟩)

instance (site : TelecomSite α) : Decidable site.ValidateOk := by
  unfold TelecomSite.ValidateOk; infer_instance

/-- Squared Euclidean distance.  The source's CalculateDistance returns
math.Sqrt of this quantity; see the module comment for why the square
root is dropped in the embedding. -/
def CalculateDistanceSq (a b : Point α) : α :=
  (a.x - b.x) ^ 2 + (a.y - b.y) ^ 2

/-- One iteration of the FindNearestEmergencyCenter loop body: replace
the accumulator when the candidate is strictly nearer. -/
def fnecStep (site : TelecomSite α) (acc : EmergencyCenter α × WithTop α)
    (center : EmergencyCenter α) : EmergencyCenter α × WithTop α :=
  let dist : WithTop α := (CalculateDistanceSq site.Location center.Location : α)
  if dist < acc.2 then (center, dist) else acc

/-- FindNearestEmergencyCenter from src/main.go: validate the site, then
scan the candidate list keeping the strictly nearest candidate, starting
from the zero-valued center and a sentinel distance (math.MaxFloat64,
embedded as ⊤).  Note the Go source performs no emptiness check on
centers. -/
def FindNearestEmergencyCenter (site : TelecomSite α)
    (centers : List (EmergencyCenter α)) : Except Err (EmergencyCenter α) :=
  if site.ValidateOk then
    .ok (centers.foldl (fnecStep site) (⟨sEmpty, ⟨0, 0⟩⟩, ⊤)).1
  else .error .InvalidEntity

/-- The local hubDistance record of FindNearestHubs. -/
structure HubDistance (α : Type) where
  hub : Hub α
  distance : α
deriving DecidableEq

/-- Inner loop (over j) of the FindNearestHubs exchange sort: cur is the
current value of distances[i], the list holds positions i+1 onward; each
strictly smaller element is swapped into position i immediately and the
scan continues.  Returns the final distances[i] and the final tail. -/
def exchangeInner (cur : HubDistance α) :
    List (HubDistance α) → HubDistance α × List (HubDistance α)
  | [] => (cur, [])
  | x :: rest =>
    if x.distance < cur.distance then
      let r := exchangeInner x rest
      (r.1, cur :: r.2)
    else
      let r := exchangeInner cur rest
      (r.1, x :: r.2)

theorem exchangeInner_length (cur : HubDistance α) (l : List (HubDistance α)) :
    (exchangeInner cur l).2.length = l.length := by
  induction l generalizing cur with
  | nil => rfl
  | cons x rest ih =>
    by_cases h : x.distance < cur.distance <;>
      simp [exchangeInner, h, ih]

/-- Outer loop (over i) of the FindNearestHubs exchange sort, structurally
recursive on a step counter so that it evaluates inside the kernel; the
counter is fixed to the list length by exchangeSort below, which by
exchangeInner_length never runs out. -/
def exchangeSortAux : Nat → List (HubDistance α) → List (HubDistance α)
  | _, [] => []
  | 0, l => l
  | n + 1, x :: rest =>
    let r := exchangeInner x rest
    r.1 :: exchangeSortAux n r.2

/-- The full exchange sort of FindNearestHubs (lines 112-118 of
src/main.go). -/
def exchangeSort (l : List (HubDistance α)) : List (HubDistance α) :=
  exchangeSortAux l.length l

/-- FindNearestHubs from src/main.go: reject N ≤ 0, then reject lists
shorter than N, then build the hubDistance list in input order, sort it
with the nested-loop exchange sort, and return the hubs of the first N
entries.  N is a Go int, embedded as ℤ. -/
def FindNearestHubs (point : Point α) (hubs : List (Hub α)) (N : ℤ) :
    Except Err (List (Hub α)) :=
  if N ≤ 0 then .error .InvalidCount
  else if (hubs.length : ℤ) < N then .error .InsufficientCandidates
  else
    .ok (((exchangeSort
      (hubs.map fun h => ⟨h, CalculateDistanceSq point h.Location⟩)).take
        N.toNat).map HubDistance.hub)

/-! Association lists embedding Go maps. -/

/-- Go map lookup: first entry with the given key, if any. -/
def lookupA {β : Type} (l : List (String × β)) (k : String) : Option β :=
  match l with
  | [] => none
  | (k', v) :: rest => if k' = k then some v else lookupA rest k

/-- Go map assignment: overwrite the first entry with the given key, or
append a fresh entry. -/
def insertA {β : Type} (l : List (String × β)) (k : String) (v : β) :
    List (String × β) :=
  match l with
  | [] => [(k, v)]
  | (k', v') :: rest =>
    if k' = k then (k, v) :: rest else (k', v') :: insertA rest k v

theorem lookupA_insertA {β : Type} (l : List (String × β)) (k k' : String)
    (v : β) :
    lookupA (insertA l k v) k' = if k = k' then some v else lookupA l k' := by
  induction l with
  | nil => simp [insertA, lookupA]
  | cons p rest ih =>
    obtain ⟨k0, v0⟩ := p
    simp only [insertA]
    by_cases h0 : k0 = k
    · subst h0
      simp only [if_pos rfl, lookupA]
      by_cases h : k0 = k' <;> simp [h]
    · rw [if_neg h0]
      simp only [lookupA, ih]
      by_cases h1 : k0 = k'
      · subst h1
        have hk : ¬(k = k0) := fun hh => h0 hh.symm
        simp [hk]
      · simp [h1]

theorem lookupA_mem {β : Type} {l : List (String × β)} {k : String} {v : β}
    (h : lookupA l k = some v) : (k, v) ∈ l := by
  induction l with
  | nil => simp [lookupA] at h
  | cons p rest ih =>
    obtain ⟨k0, v0⟩ := p
    by_cases h0 : k0 = k
    · subst h0
      simp [lookupA] at h
      simp [h]
    · simp [lookupA, h0] at h
      exact List.mem_cons_of_mem _ (ih h)

theorem lookupA_isSome_insertA {β : Type} (l : List (String × β))
    (k k' : String) (v : β) :
    (lookupA (insertA l k v) k').isSome =
      ((k = k') || (lookupA l k').isSome) := by
  rw [lookupA_insertA]
  by_cases h : k = k' <;> simp [h]

theorem mem_of_mem_insertA {β : Type} {l : List (String × β)} {k : String}
    {v : β} {p : String × β} (h : p ∈ insertA l k v) :
    p ∈ l ∨ p = (k, v) := by
  induction l with
  | nil => simp [insertA] at h; simp [h]
  | cons q rest ih =>
    obtain ⟨k0, v0⟩ := q
    by_cases h0 : k0 = k
    · subst h0
      simp [insertA] at h
      rcases h with h | h
      · right; simp [h]
      · left; simp [h]
    · simp [insertA, h0] at h
      rcases h with h | h
      · left; simp [h]
      · rcases ih h with h1 | h1
        · left; simp [h1]
        · right; exact h1

/-! The Graph type and its two mutating operations. -/

/-- Graph from src/main.go: Nodes is a Go map used as a set (values are
always true), Neighbors maps a node to its adjacency map. -/
structure Graph (α : Type) where
  Nodes : List (String × Bool)
  Neighbors : List (String × List (String × α))
deriving DecidableEq

/-- NewGraph from src/main.go: both maps empty. -/
def NewGraph : Graph α := ⟨[], []⟩

/-- AddNode from src/main.go: if the node is absent, record it and give
it an empty adjacency map; otherwise do nothing. -/
def Graph.AddNode (g : Graph α) (node : String) : Graph α :=
  match lookupA g.Nodes node with
  | some _ => g
  | none => ⟨insertA g.Nodes node true, insertA g.Neighbors node []⟩

/-- The assignment g.Neighbors[frm][to] = cost.  In Go the inner map is
guaranteed to exist because AddEdge calls AddNode first (assigning into a
nil Go map would panic); the none branch is unreachable from AddEdge. -/
def setWeight (m : List (String × List (String × α))) (frm dst : String)
    (cost : α) : List (String × List (String × α)) :=
  match lookupA m frm with
  | some inner => insertA m frm (insertA inner dst cost)
  | none => m

/-- AddEdge from src/main.go: ensure both endpoints exist, then set the
weight in both directions (undirected graph). -/
def Graph.AddEdge (g : Graph α) (frm dst : String) (cost : α) : Graph α :=
  let g1 := (g.AddNode frm).AddNode dst
  { g1 with Neighbors := setWeight (setWeight g1.Neighbors frm dst cost) dst frm cost }

/-- The weight found by the two-level lookup g.Neighbors[a][b], none when
either level misses. -/
def edgeW (g : Graph α) (a b : String) : Option α :=
  (lookupA g.Neighbors a).bind fun inner => lookupA inner b

/-- A single call against the graph API, used to quantify over all call
sequences. -/
inductive Op (α : Type) where
  | node (id : String)
  | edge (a b : String) (w : α)

/-- Run one call. -/
def applyOp (g : Graph α) : Op α → Graph α
  | .node id => g.AddNode id
  | .edge a b w => g.AddEdge a b w

/-- Run a call sequence from a given graph. -/
def applyOps (g : Graph α) (ops : List (Op α)) : Graph α :=
  ops.foldl applyOp g

/-! BuildNetworkGraph and its three connection loops.  The Go code wraps
each propagated error in fmt.Errorf; the wrapping message is not
modelled, the underlying error is propagated as is. -/

/-- Loop 1 of BuildNetworkGraph: connect each telecom site to its nearest
hub (N = 1). -/
def connectSites (g : Graph α) (sites : List (TelecomSite α))
    (hubs : List (Hub α)) : Except Err (Graph α) :=
  match sites with
  | [] => .ok g
  | site :: rest =>
    match FindNearestHubs site.Location hubs 1 with
    | .error e => .error e
    | .ok nearest =>
      connectSites
        (nearest.foldl (fun g2 hub =>
          g2.AddEdge site.ID hub.ID
            (CalculateDistanceSq site.Location hub.Location)) g)
        rest hubs

/-- Loop 2 of BuildNetworkGraph: ask for the three nearest hubs
(including the hub itself), then connect to the entries at positions 1
and 2 — the Go comment says position 0 is the hub itself, which need not
hold under distance ties. -/
def connectHubs (g : Graph α) (pending hubs : List (Hub α)) :
    Except Err (Graph α) :=
  match pending with
  | [] => .ok g
  | hub :: rest =>
    match FindNearestHubs hub.Location hubs 3 with
    | .error e => .error e
    | .ok nearest =>
      connectHubs
        (((nearest.drop 1).take 2).foldl (fun g2 nh =>
          g2.AddEdge hub.ID nh.ID
            (CalculateDistanceSq hub.Location nh.Location)) g)
        rest hubs

/-- Loop 3 of BuildNetworkGraph: connect each emergency center to its
five nearest hubs. -/
def connectCenters (g : Graph α) (centers : List (EmergencyCenter α))
    (hubs : List (Hub α)) : Except Err (Graph α) :=
  match centers with
  | [] => .ok g
  | ec :: rest =>
    match FindNearestHubs ec.Location hubs 5 with
    | .error e => .error e
    | .ok nearest =>
      connectCenters
        (nearest.foldl (fun g2 hub =>
          g2.AddEdge ec.ID hub.ID
            (CalculateDistanceSq ec.Location hub.Location)) g)
        rest hubs

/-- BuildNetworkGraph from src/main.go: the three loops in order, failing
fast on the first error. -/
def BuildNetworkGraph (telecomSites : List (TelecomSite α))
    (hubs : List (Hub α)) (emergencyCenters : List (EmergencyCenter α)) :
    Except Err (Graph α) :=
  match connectSites NewGraph telecomSites hubs with
  | .error e => .error e
  | .ok g1 =>
    match connectHubs g1 hubs hubs with
    | .error e => .error e
    | .ok g2 => connectCenters g2 emergencyCenters hubs

/-! Dijkstra from src/main.go. -/

/-- Item from src/main.go.  The Index field is container/heap
bookkeeping with no observable effect and is not modelled; the queue is
embedded as a bag with extract-min (see the module comment). -/
structure Item (α : Type) where
  Value : String
  Priority : WithTop α
deriving DecidableEq

/-- Extract-min of the priority queue: the first element of minimal
priority, and the remaining elements in order. -/
def popMin : List (Item α) → Option (Item α × List (Item α))
  | [] => none
  | it :: rest =>
    match popMin rest with
    | none => some (it, [])
    | some (m, rest') =>
      if m.Priority < it.Priority then some (m, it :: rest')
      else some (it, rest)

/-- The mutable state of the Dijkstra main loop: the distances and
previous maps, the visited set (as a list in visit order, standing for
the Go map used as a set), and the priority queue. -/
structure DState (α : Type) where
  dist : List (String × WithTop α)
  prev : List (String × String)
  visited : List String
  pq : List (Item α)
deriving DecidableEq

/-- The neighbor relaxation loop of Dijkstra: for each neighbor, when
distances[current] + cost improves on distances[neighbor] (Go map reads
default to the zero value 0 on a missing key), update the distance and
predecessor and push a fresh queue entry. -/
def relaxNbrs (current : String) :
    List (String × α) → DState α → DState α
  | [], st => st
  | (nb, cost) :: rest, st =>
    let dcur := (lookupA st.dist current).getD 0
    let alt := dcur + (cost : WithTop α)
    if alt < (lookupA st.dist nb).getD 0 then
      relaxNbrs current rest
        { st with
          dist := insertA st.dist nb alt,
          prev := insertA st.prev nb current,
          pq := st.pq ++ [⟨nb, alt⟩] }
    else relaxNbrs current rest st

/-- The Dijkstra main loop, one fuel unit per pop: pop a minimal entry;
if its node is already visited, discard it (lazy deletion); otherwise
mark it visited and relax its neighbors.  The loop exits when the queue
is empty; none means the fuel ran out (never happens from the initial
state, see dijkstraLoop_completes). -/
def dijkstraLoop (g : Graph α) : Nat → DState α → Option (DState α)
  | fuel, st =>
    match popMin st.pq with
    | none => some st
    | some (it, rest) =>
      match fuel with
      | 0 => none
      | fuel' + 1 =>
        if it.Value ∈ st.visited then
          dijkstraLoop g fuel' { st with pq := rest }
        else
          dijkstraLoop g fuel'
            (relaxNbrs it.Value ((lookupA g.Neighbors it.Value).getD [])
              { st with pq := rest, visited := st.visited ++ [it.Value] })

/-- The initial distances map: infinity for every node of the graph,
then 0 for the start node. -/
def initDist (g : Graph α) (start : String) : List (String × WithTop α) :=
  insertA (g.Nodes.map fun p => (p.1, (⊤ : WithTop α))) start 0

/-- Fuel that always suffices for the main loop from the initial state:
one pop for the initial entry plus at most one push per adjacency entry
of the graph, plus slack. -/
def dijkstraFuel (g : Graph α) : Nat :=
  2 + (g.Neighbors.map fun p => p.2.length).sum

/-- Dijkstra from src/main.go.  The nil-graph check has no counterpart
in the value embedding; the missing-start check is the UnknownStartNode
error.  Returns the final distances and previous maps. -/
def Dijkstra (g : Graph α) (start : String) :
    Except Err (List (String × WithTop α) × List (String × String)) :=
  if (lookupA g.Nodes start).isSome then
    match dijkstraLoop g (dijkstraFuel g)
        ⟨initDist g start, [], [], [⟨start, 0⟩]⟩ with
    | some st => .ok (st.dist, st.prev)
    | none => .error .FuelExhausted
  else .error .UnknownStartNode

/-- The body of ReconstructPath from src/main.go, one fuel unit per
backward step through the previous map (the Go loop does not terminate
on a cyclic previous map, hence the fuel). -/
def reconstructLoop (previous : List (String × String)) (start : String) :
    Nat → String → List String → Option (Except Err (List String))
  | fuel, current, path =>
    if current = start then some (.ok (start :: path))
    else
      match fuel with
      | 0 => none
      | fuel' + 1 =>
        match lookupA previous current with
        | none => some (.error .NoPathFound)
        | some p => reconstructLoop previous start fuel' p (current :: path)

/-- ReconstructPath from src/main.go, fuel-bounded. -/
def ReconstructPath (fuel : Nat) (previous : List (String × String))
    (start target : String) : Option (Except Err (List String)) :=
  reconstructLoop previous start fuel target []

/-- Reachability along the directed adjacency structure (for graphs
built by AddEdge the structure is symmetric, so this is ordinary
reachability). -/
inductive Reach (g : Graph α) (start : String) : String → Prop
  | refl : Reach g start start
  | step {v w : String} {c : α} :
      Reach g start v → edgeW g v w = some c → Reach g start w

/-- Well-formedness of a Graph value, as guaranteed for any graph that a
Go program can hold: map keys are unique at both levels (Go maps cannot
hold duplicate keys), every neighbor key is a node (the data-model
closure invariant maintained by AddEdge), and — the hypothesis of the
shortest-path claims — every weight is non-negative. -/
def WFGraph (g : Graph α) : Prop :=
  (g.Nodes.map Prod.fst).Nodup ∧
  (g.Neighbors.map Prod.fst).Nodup ∧
  ∀ p ∈ g.Neighbors, (p.2.map Prod.fst).Nodup ∧
    ∀ q ∈ p.2, (lookupA g.Nodes q.1).isSome ∧ 0 ≤ q.2

instance (g : Graph α) : Decidable (WFGraph g) := by
  unfold WFGraph; infer_instance

/-- The concrete well-formed graph used by witnesses: nodes A, B, C with
a single edge A-B of weight 1; C is unreachable. -/
def gWitness : Graph ℤ :=
  ⟨[(sA, true), (sB, true), (sC, true)],
   [(sA, [(sB, 1)]), (sB, [(sA, 1)]), (sC, [])]⟩

/-! Claim C1. -/

/-- C1: counter-evidence against the claimed empty-list behaviour.  With
a valid site and an empty candidate list, FindNearestEmergencyCenter
returns the zero-valued emergency center with no error — the source has
no emptiness check — instead of failing with EmptyCandidateSet as the
claim (and spec section 4.2) requires. -/
theorem c1_empty_list_returns_zero_value :
    FindNearestEmergencyCenter (⟨sS, ⟨1, 2⟩⟩ : TelecomSite ℤ) [] =
    Except.ok ⟨sEmpty, ⟨0, 0⟩⟩ := by decide

/-! Claim C2. -/

/-- C2: counter-evidence against the claimed hub self-exclusion.  With
hubs A and B at the same coordinate and a third hub C, the hub loop of
BuildNetworkGraph adds the self-loop edge B-B with weight 0: for source
hub B the three nearest hubs are [A, B, C] (the tie at distance 0 keeps
input order), so skipping position 0 drops A rather than B itself.  The
claim says no self-loop is ever built. -/
theorem c2_self_loop_at_tied_hub :
    (BuildNetworkGraph ([] : List (TelecomSite ℤ))
        [⟨sA, ⟨1, 1⟩⟩, ⟨sB, ⟨1, 1⟩⟩, ⟨sC, ⟨5, 5⟩⟩] []).map
      (fun g => edgeW g sB sB) = Except.ok (some 0) := by decide

/-! Claim C4. -/

/-- C4: FindNearestHubs fails with InvalidCount exactly when N ≤ 0,
fails with InsufficientCandidates when 0 < N and fewer than N hubs
exist, and in every other case returns a hub list rather than an error;
a failing call returns no hub list (the Except carries only the
error). -/
theorem c4_find_nearest_hubs_errors (point : Point α) (hubs : List (Hub α))
    (N : ℤ) :
    (N ≤ 0 → FindNearestHubs point hubs N = .error .InvalidCount) ∧
    (0 < N → (hubs.length : ℤ) < N →
      FindNearestHubs point hubs N = .error .InsufficientCandidates) ∧
    (0 < N → N ≤ (hubs.length : ℤ) →
      ∃ res, FindNearestHubs point hubs N = .ok res) := by
  refine ⟨fun h => ?_, fun h1 h2 => ?_, fun h1 h2 => ?_⟩
  · simp [FindNearestHubs, h]
  · simp [FindNearestHubs, not_le.mpr h1, h2]
  · exact ⟨_, by
      simp only [FindNearestHubs, if_neg (not_le.mpr h1),
        if_neg (not_lt.mpr h2)]
      rfl⟩

/-- C4 witness: the three branches of c4_find_nearest_hubs_errors at
concrete inputs. -/
theorem c4_witness :
    FindNearestHubs (⟨0, 0⟩ : Point ℤ) [] (-1) = .error .InvalidCount ∧
    FindNearestHubs (⟨0, 0⟩ : Point ℤ) [] 1 = .error .InsufficientCandidates ∧
    ∃ res, FindNearestHubs (⟨0, 0⟩ : Point ℤ) [⟨sA, ⟨1, 1⟩⟩] 1 = .ok res :=
  ⟨(c4_find_nearest_hubs_errors _ _ _).1 (by decide),
   (c4_find_nearest_hubs_errors _ _ _).2.1 (by decide) (by decide),
   (c4_find_nearest_hubs_errors _ _ _).2.2 (by decide) (by decide)⟩

/-! Claim C8. -/

/-- C8: ReconstructPath with source equal to target returns the
single-element path [target] and never fails, for every previous map and
every fuel bound: the loop condition is false on entry, so the previous
map is never consulted. -/
theorem c8_reconstruct_source_eq_target (previous : List (String × String))
    (t : String) (fuel : Nat) :
    ReconstructPath fuel previous t t = some (.ok [t]) := by
  show reconstructLoop previous t fuel t [] = _
  unfold reconstructLoop
  simp

/-! Correctness of the exchange sort, toward claim C3. -/

theorem exchangeInner_cons (cur x : HubDistance α) (rest : List (HubDistance α)) :
    exchangeInner cur (x :: rest) =
      if x.distance < cur.distance then
        ((exchangeInner x rest).1, cur :: (exchangeInner x rest).2)
      else ((exchangeInner cur rest).1, x :: (exchangeInner cur rest).2) := by
  by_cases h : x.distance < cur.distance <;> simp [exchangeInner, h]

theorem exchangeInner_perm (cur : HubDistance α) (l : List (HubDistance α)) :
    ((exchangeInner cur l).1 :: (exchangeInner cur l).2).Perm (cur :: l) := by
  induction l generalizing cur with
  | nil => simp [exchangeInner]
  | cons x rest ih =>
    rw [exchangeInner_cons]
    by_cases h : x.distance < cur.distance
    · rw [if_pos h]
      exact (List.Perm.swap cur (exchangeInner x rest).1 _).trans
        ((ih x).cons cur)
    · rw [if_neg h]
      refine (List.Perm.swap x (exchangeInner cur rest).1 _).trans ?_
      exact ((ih cur).cons x).trans (List.Perm.swap cur x rest)

theorem exchangeInner_min (cur : HubDistance α) (l : List (HubDistance α)) :
    (exchangeInner cur l).1.distance ≤ cur.distance ∧
    ∀ y ∈ (exchangeInner cur l).2,
      (exchangeInner cur l).1.distance ≤ y.distance := by
  induction l generalizing cur with
  | nil => simp [exchangeInner]
  | cons x rest ih =>
    rw [exchangeInner_cons]
    by_cases h : x.distance < cur.distance
    · rw [if_pos h]
      obtain ⟨hx, hall⟩ := ih x
      refine ⟨le_of_lt (lt_of_le_of_lt hx h), ?_⟩
      intro y hy
      rcases List.mem_cons.mp hy with rfl | hy
      · exact le_of_lt (lt_of_le_of_lt hx h)
      · exact hall y hy
    · rw [if_neg h]
      obtain ⟨hc, hall⟩ := ih cur
      refine ⟨hc, ?_⟩
      intro y hy
      rcases List.mem_cons.mp hy with rfl | hy
      · exact le_trans hc (not_lt.mp h)
      · exact hall y hy

theorem exchangeSortAux_cons (n : Nat) (x : HubDistance α)
    (rest : List (HubDistance α)) :
    exchangeSortAux (n + 1) (x :: rest) =
      (exchangeInner x rest).1 ::
        exchangeSortAux n (exchangeInner x rest).2 := rfl

theorem exchangeSortAux_perm (n : Nat) (l : List (HubDistance α))
    (h : l.length = n) : (exchangeSortAux n l).Perm l := by
  induction n generalizing l with
  | zero =>
    cases l with
    | nil => simp [exchangeSortAux]
    | cons x rest => simp at h
  | succ n ih =>
    cases l with
    | nil => simp [exchangeSortAux]
    | cons x rest =>
      have hlen : (exchangeInner x rest).2.length = n := by
        rw [exchangeInner_length]
        simpa using h
      rw [exchangeSortAux_cons]
      exact ((ih _ hlen).cons _).trans (exchangeInner_perm x rest)

theorem exchangeSort_perm (l : List (HubDistance α)) :
    (exchangeSort l).Perm l :=
  exchangeSortAux_perm _ _ rfl

theorem exchangeSortAux_sorted (n : Nat) (l : List (HubDistance α))
    (h : l.length = n) :
    (exchangeSortAux n l).Pairwise fun a b => a.distance ≤ b.distance := by
  induction n generalizing l with
  | zero =>
    cases l with
    | nil => simp [exchangeSortAux]
    | cons x rest => simp at h
  | succ n ih =>
    cases l with
    | nil => simp [exchangeSortAux]
    | cons x rest =>
      have hlen : (exchangeInner x rest).2.length = n := by
        rw [exchangeInner_length]
        simpa using h
      rw [exchangeSortAux_cons]
      refine List.Pairwise.cons ?_ (ih _ hlen)
      intro y hy
      have hy2 : y ∈ (exchangeInner x rest).2 :=
        (exchangeSortAux_perm n _ hlen).mem_iff.mp hy
      exact (exchangeInner_min x rest).2 y hy2

theorem exchangeSort_sorted (l : List (HubDistance α)) :
    (exchangeSort l).Pairwise fun a b => a.distance ≤ b.distance :=
  exchangeSortAux_sorted _ _ rfl

/-! Claim C3. -/

/-- C3 counterexample: with hubs A and B tied at squared distance 4 and
hub C nearer, the input-order (stable) tie-break demanded by the claim
would select [C, A] — A precedes B in the input — but FindNearestHubs
returns [C, B]: the exchange sort swaps the tied pair while moving C to
the front, so ties are not broken by input order. -/
theorem c3_counterexample_unstable_ties :
    FindNearestHubs (⟨0, 0⟩ : Point ℤ)
        [⟨sA, ⟨2, 0⟩⟩, ⟨sB, ⟨0, 2⟩⟩, ⟨sC, ⟨1, 0⟩⟩] 2 =
      Except.ok [⟨sC, ⟨1, 0⟩⟩, ⟨sB, ⟨0, 2⟩⟩] ∧
    CalculateDistanceSq (⟨0, 0⟩ : Point ℤ) ⟨2, 0⟩ =
      CalculateDistanceSq (⟨0, 0⟩ : Point ℤ) ⟨0, 2⟩ ∧
    ([⟨sC, ⟨1, 0⟩⟩, ⟨sB, ⟨0, 2⟩⟩] : List (Hub ℤ)) ≠
      [⟨sC, ⟨1, 0⟩⟩, ⟨sA, ⟨2, 0⟩⟩] := by decide

/-- C3 as amended: for 0 < N ≤ M, FindNearestHubs returns exactly N
elements drawn from the input without reusing an entry (the returned
list plus a remainder is a permutation of the input), sorted by
non-decreasing distance, and every returned hub is at least as near as
every non-returned hub; the input-order tie-break of the original claim
is dropped (refuted by c3_counterexample_unstable_ties). -/
theorem c3_nearest_hubs_selection (point : Point α) (hubs : List (Hub α))
    (N : ℤ) (h1 : 0 < N) (h2 : N ≤ (hubs.length : ℤ)) :
    ∃ res omitted : List (Hub α),
      FindNearestHubs point hubs N = .ok res ∧
      (res.length : ℤ) = N ∧
      res.Pairwise (fun a b =>
        CalculateDistanceSq point a.Location ≤
          CalculateDistanceSq point b.Location) ∧
      (res ++ omitted).Perm hubs ∧
      ∀ a ∈ res, ∀ b ∈ omitted,
        CalculateDistanceSq point a.Location ≤
          CalculateDistanceSq point b.Location := by
  set dists := hubs.map
    (fun h => (⟨h, CalculateDistanceSq point h.Location⟩ : HubDistance α))
    with hdists
  have hperm := exchangeSort_perm dists
  have hsorted := exchangeSort_sorted dists
  have hfield : ∀ y ∈ exchangeSort dists,
      y.distance = CalculateDistanceSq point y.hub.Location := by
    intro y hy
    have hmem : y ∈ dists := hperm.mem_iff.mp hy
    rw [hdists] at hmem
    obtain ⟨h, _, rfl⟩ := List.mem_map.mp hmem
    rfl
  have hlen1 : (exchangeSort dists).length = hubs.length := by
    rw [hperm.length_eq, hdists, List.length_map]
  have hNle : N.toNat ≤ (exchangeSort dists).length := by
    rw [hlen1]
    exact Int.toNat_le.mpr h2
  have hsubset : ∀ y ∈ (exchangeSort dists).take N.toNat,
      y ∈ exchangeSort dists := fun y hy => List.mem_of_mem_take hy
  refine ⟨((exchangeSort dists).take N.toNat).map HubDistance.hub,
          ((exchangeSort dists).drop N.toNat).map HubDistance.hub,
          ?_, ?_, ?_, ?_, ?_⟩
  · simp only [FindNearestHubs, if_neg (not_le.mpr h1),
      if_neg (not_lt.mpr h2)]
  · simp only [List.length_map, List.length_take,
      Nat.min_eq_left hNle]
    exact Int.toNat_of_nonneg h1.le
  · rw [List.pairwise_map]
    have htake : ((exchangeSort dists).take N.toNat).Pairwise
        (fun a b => a.distance ≤ b.distance) :=
      hsorted.sublist (List.take_sublist _ _)
    refine htake.imp_of_mem ?_
    intro a b ha hb hab
    rw [← hfield a (hsubset a ha), ← hfield b (hsubset b hb)]
    exact hab
  · have hmap : dists.map HubDistance.hub = hubs := by
      simp [hdists, List.map_map]
      exact List.map_id hubs
    rw [← List.map_append, List.take_append_drop]
    exact hmap ▸ hperm.map HubDistance.hub
  · intro a ha b hb
    obtain ⟨a', ha', rfl⟩ := List.mem_map.mp ha
    obtain ⟨b', hb', rfl⟩ := List.mem_map.mp hb
    have hcross : a'.distance ≤ b'.distance := by
      have hs := hsorted
      rw [← List.take_append_drop N.toNat (exchangeSort dists)] at hs
      exact (List.pairwise_append.mp hs).2.2 a' ha' b' hb'
    rw [← hfield a' (hsubset a' ha'),
        ← hfield b' (List.mem_of_mem_drop hb')]
    exact hcross

/-- C3 witness: c3_nearest_hubs_selection applied to one hub at N = 1. -/
theorem c3_witness :
    ∃ res omitted : List (Hub ℤ),
      FindNearestHubs (⟨0, 0⟩ : Point ℤ) [⟨sA, ⟨1, 1⟩⟩] 1 = .ok res ∧
      (res.length : ℤ) = 1 ∧
      res.Pairwise (fun a b =>
        CalculateDistanceSq (⟨0, 0⟩ : Point ℤ) a.Location ≤
          CalculateDistanceSq (⟨0, 0⟩ : Point ℤ) b.Location) ∧
      (res ++ omitted).Perm [⟨sA, ⟨1, 1⟩⟩] ∧
      ∀ a ∈ res, ∀ b ∈ omitted,
        CalculateDistanceSq (⟨0, 0⟩ : Point ℤ) a.Location ≤
          CalculateDistanceSq (⟨0, 0⟩ : Point ℤ) b.Location :=
  c3_nearest_hubs_selection _ _ _ (by decide) (by decide)

/-! Claim C5: invariants of graphs reachable through AddNode/AddEdge. -/

/-- The maintained invariant of reachable graphs: the two maps have the
same domain, the adjacency is weight-symmetric, and every neighbor key
is a node. -/
def GInv (g : Graph α) : Prop :=
  (∀ k, (lookupA g.Nodes k).isSome ↔ (lookupA g.Neighbors k).isSome) ∧
  (∀ a b c, edgeW g a b = some c ↔ edgeW g b a = some c) ∧
  (∀ p ∈ g.Neighbors, ∀ q ∈ p.2, (lookupA g.Nodes q.1).isSome)

theorem ginv_newGraph : GInv (NewGraph : Graph α) := by
  refine ⟨fun k => ?_, fun a b c => ?_, fun p hp => ?_⟩
  · simp [NewGraph, lookupA]
  · simp [NewGraph, edgeW, lookupA]
  · simp [NewGraph] at hp

theorem addNode_nodes_isSome (g : Graph α) (n k : String) :
    (lookupA (g.AddNode n).Nodes k).isSome =
      ((n = k) || (lookupA g.Nodes k).isSome) := by
  unfold Graph.AddNode
  cases h : lookupA g.Nodes n with
  | some v =>
    by_cases hk : n = k
    · subst hk
      simp [h]
    · simp [hk]
  | none => simp [lookupA_isSome_insertA]

theorem addNode_dom (g : Graph α) (n : String)
    (hdom : ∀ k, (lookupA g.Nodes k).isSome ↔ (lookupA g.Neighbors k).isSome) :
    ∀ k, (lookupA (g.AddNode n).Nodes k).isSome ↔
      (lookupA (g.AddNode n).Neighbors k).isSome := by
  intro k
  unfold Graph.AddNode
  cases h : lookupA g.Nodes n with
  | some v => exact hdom k
  | none =>
    simp only [lookupA_isSome_insertA, Bool.or_eq_true]
    rw [hdom k]

theorem edgeW_addNode (g : Graph α) (n x y : String)
    (hdom : ∀ k, (lookupA g.Nodes k).isSome ↔ (lookupA g.Neighbors k).isSome) :
    edgeW (g.AddNode n) x y = edgeW g x y := by
  unfold Graph.AddNode
  cases h : lookupA g.Nodes n with
  | some v => rfl
  | none =>
    have hn : lookupA g.Neighbors n = none := by
      have h2 := (hdom n).not
      rw [h] at h2
      simp at h2
      exact h2
    simp only [edgeW, lookupA_insertA]
    by_cases hx : n = x
    · subst hx
      rw [if_pos rfl, hn]
      simp [lookupA]
    · rw [if_neg hx]

theorem setWeight_isSome (m : List (String × List (String × α)))
    (f d : String) (w : α) (k : String) :
    (lookupA (setWeight m f d w) k).isSome = (lookupA m k).isSome := by
  unfold setWeight
  cases h : lookupA m f with
  | none => rfl
  | some inner =>
    rw [lookupA_isSome_insertA]
    by_cases hk : f = k
    · subst hk
      simp [h]
    · simp [hk]

theorem mem_setWeight (m : List (String × List (String × α)))
    (f d : String) (w : α) {p : String × List (String × α)}
    (hp : p ∈ setWeight m f d w) :
    p ∈ m ∨ ∃ inner, lookupA m f = some inner ∧ p = (f, insertA inner d w) := by
  unfold setWeight at hp
  cases h : lookupA m f with
  | none =>
    rw [h] at hp
    exact Or.inl hp
  | some inner =>
    rw [h] at hp
    rcases mem_of_mem_insertA hp with h1 | h1
    · exact Or.inl h1
    · exact Or.inr ⟨inner, rfl, h1⟩

theorem edgeW_addEdge (g : Graph α) (a b x y : String) (w : α)
    (hdom : ∀ k, (lookupA g.Nodes k).isSome ↔ (lookupA g.Neighbors k).isSome) :
    edgeW (g.AddEdge a b w) x y =
      if (x = a ∧ y = b) ∨ (x = b ∧ y = a) then some w
      else edgeW g x y := by
  have hdomA := addNode_dom g a hdom
  have hdom1 := addNode_dom (g.AddNode a) b hdomA
  have hedge1 : ∀ u v, edgeW ((g.AddNode a).AddNode b) u v = edgeW g u v :=
    fun u v => (edgeW_addNode (g.AddNode a) b u v hdomA).trans
      (edgeW_addNode g a u v hdom)
  have haN : (lookupA ((g.AddNode a).AddNode b).Nodes a).isSome := by
    rw [addNode_nodes_isSome, addNode_nodes_isSome]
    simp
  have hbN : (lookupA ((g.AddNode a).AddNode b).Nodes b).isSome := by
    rw [addNode_nodes_isSome]
    simp
  obtain ⟨innerA, hA⟩ := Option.isSome_iff_exists.mp ((hdom1 a).mp haN)
  obtain ⟨innerB, hB⟩ := Option.isSome_iff_exists.mp ((hdom1 b).mp hbN)
  have hgaY : ∀ v, edgeW g a v = lookupA innerA v := by
    intro v
    rw [← hedge1 a v]
    unfold edgeW
    rw [hA]
    rfl
  have hgbY : ∀ v, edgeW g b v = lookupA innerB v := by
    intro v
    rw [← hedge1 b v]
    unfold edgeW
    rw [hB]
    rfl
  show edgeW ⟨((g.AddNode a).AddNode b).Nodes,
      setWeight (setWeight ((g.AddNode a).AddNode b).Neighbors a b w)
        b a w⟩ x y = _
  have hswA : setWeight ((g.AddNode a).AddNode b).Neighbors a b w =
      insertA ((g.AddNode a).AddNode b).Neighbors a (insertA innerA b w) := by
    unfold setWeight
    rw [hA]
  by_cases hab : a = b
  · subst hab
    have hl2 : lookupA (insertA ((g.AddNode a).AddNode a).Neighbors a
        (insertA innerA a w)) a = some (insertA innerA a w) := by
      rw [lookupA_insertA]
      simp
    have hsw2 : setWeight (insertA ((g.AddNode a).AddNode a).Neighbors a
        (insertA innerA a w)) a a w =
        insertA (insertA ((g.AddNode a).AddNode a).Neighbors a
          (insertA innerA a w)) a (insertA (insertA innerA a w) a w) := by
      unfold setWeight
      rw [hl2]
    simp only [edgeW]
    rw [hswA, hsw2, lookupA_insertA]
    by_cases hx : a = x
    · subst hx
      rw [if_pos rfl]
      show lookupA (insertA (insertA innerA a w) a w) y = _
      rw [lookupA_insertA, lookupA_insertA]
      by_cases hy : a = y
      · subst hy
        simp
      · rw [if_neg hy, if_neg hy, if_neg (by
          intro hcon
          rcases hcon with ⟨_, h2⟩ | ⟨_, h2⟩ <;> exact hy h2.symm)]
        exact (hgaY y).symm
    · rw [if_neg hx, lookupA_insertA, if_neg hx,
        if_neg (by
          intro hcon
          rcases hcon with ⟨h2, _⟩ | ⟨h2, _⟩ <;> exact hx h2.symm)]
      exact hedge1 x y
  · have hl2 : lookupA (insertA ((g.AddNode a).AddNode b).Neighbors a
        (insertA innerA b w)) b = some innerB := by
      rw [lookupA_insertA, if_neg hab]
      exact hB
    have hsw2 : setWeight (insertA ((g.AddNode a).AddNode b).Neighbors a
        (insertA innerA b w)) b a w =
        insertA (insertA ((g.AddNode a).AddNode b).Neighbors a
          (insertA innerA b w)) b (insertA innerB a w) := by
      unfold setWeight
      rw [hl2]
    simp only [edgeW]
    rw [hswA, hsw2, lookupA_insertA]
    by_cases hxb : b = x
    · subst hxb
      rw [if_pos rfl]
      show lookupA (insertA innerB a w) y = _
      rw [lookupA_insertA]
      by_cases hy : a = y
      · subst hy
        rw [if_pos rfl, if_pos (Or.inr ⟨rfl, rfl⟩)]
      · rw [if_neg hy, if_neg (by
          intro hcon
          rcases hcon with ⟨h2, _⟩ | ⟨_, h2⟩
          · exact hab h2.symm
          · exact hy h2.symm)]
        exact (hgbY y).symm
    · rw [if_neg hxb, lookupA_insertA]
      by_cases hxa : a = x
      · subst hxa
        rw [if_pos rfl]
        show lookupA (insertA innerA b w) y = _
        rw [lookupA_insertA]
        by_cases hy : b = y
        · subst hy
          rw [if_pos rfl, if_pos (Or.inl ⟨rfl, rfl⟩)]
        · rw [if_neg hy, if_neg (by
            intro hcon
            rcases hcon with ⟨_, h2⟩ | ⟨h2, _⟩
            · exact hy h2.symm
            · exact hab h2)]
          exact (hgaY y).symm
      · rw [if_neg hxa, if_neg (by
          intro hcon
          rcases hcon with ⟨h2, _⟩ | ⟨h2, _⟩
          · exact hxa h2.symm
          · exact hxb h2.symm)]
        exact hedge1 x y

theorem ginv_addNode (g : Graph α) (n : String) (hg : GInv g) :
    GInv (g.AddNode n) := by
  obtain ⟨hdom, hsym, hcl⟩ := hg
  refine ⟨addNode_dom g n hdom, ?_, ?_⟩
  · intro x y c
    rw [edgeW_addNode g n x y hdom, edgeW_addNode g n y x hdom]
    exact hsym x y c
  · intro p hp q hq
    have hp' : p ∈ g.Neighbors ∨ p = (n, ([] : List (String × α))) := by
      unfold Graph.AddNode at hp
      cases h : lookupA g.Nodes n with
      | some v =>
        rw [h] at hp
        exact Or.inl hp
      | none =>
        rw [h] at hp
        exact mem_of_mem_insertA hp
    rw [addNode_nodes_isSome, Bool.or_eq_true]
    rcases hp' with hp' | rfl
    · exact Or.inr (hcl p hp' q hq)
    · simp at hq

theorem ginv_addEdge (g : Graph α) (a b : String) (w : α) (hg : GInv g) :
    GInv (g.AddEdge a b w) := by
  have hg1 : GInv ((g.AddNode a).AddNode b) :=
    ginv_addNode _ b (ginv_addNode _ a hg)
  obtain ⟨hdom, hsym, hcl⟩ := hg
  obtain ⟨hdom1, hsym1, hcl1⟩ := hg1
  have haN : (lookupA ((g.AddNode a).AddNode b).Nodes a).isSome := by
    rw [addNode_nodes_isSome, addNode_nodes_isSome]
    simp
  have hbN : (lookupA ((g.AddNode a).AddNode b).Nodes b).isSome := by
    rw [addNode_nodes_isSome]
    simp
  refine ⟨?_, ?_, ?_⟩
  · intro k
    show (lookupA ((g.AddNode a).AddNode b).Nodes k).isSome ↔
      (lookupA (setWeight (setWeight ((g.AddNode a).AddNode b).Neighbors
        a b w) b a w) k).isSome
    rw [setWeight_isSome, setWeight_isSome]
    exact hdom1 k
  · intro x y c
    rw [edgeW_addEdge g a b x y w hdom, edgeW_addEdge g a b y x w hdom]
    by_cases hc : (x = a ∧ y = b) ∨ (x = b ∧ y = a)
    · have hc' : (y = a ∧ x = b) ∨ (y = b ∧ x = a) := by tauto
      rw [if_pos hc, if_pos hc']
    · have hc' : ¬((y = a ∧ x = b) ∨ (y = b ∧ x = a)) := by tauto
      rw [if_neg hc, if_neg hc']
      exact hsym x y c
  · intro p hp q hq
    show (lookupA ((g.AddNode a).AddNode b).Nodes q.1).isSome
    have hp' : p ∈ setWeight (setWeight ((g.AddNode a).AddNode b).Neighbors
        a b w) b a w := hp
    rcases mem_setWeight _ _ _ _ hp' with hp1 | ⟨inner2, hli, rfl⟩
    · rcases mem_setWeight _ _ _ _ hp1 with hp2 | ⟨innerX, hlx, rfl⟩
      · exact hcl1 p hp2 q hq
      · rcases mem_of_mem_insertA hq with hq1 | rfl
        · exact hcl1 (a, innerX) (lookupA_mem hlx) q hq1
        · exact hbN
    · rcases mem_of_mem_insertA hq with hq1 | rfl
      · rcases mem_setWeight _ _ _ _ (lookupA_mem hli) with hm | ⟨innerX, hlx, heq⟩
        · exact hcl1 (b, inner2) hm q hq1
        · have hinner : inner2 = insertA innerX b w := congrArg Prod.snd heq
          rcases mem_of_mem_insertA (hinner ▸ hq1) with hq2 | rfl
          · exact hcl1 (a, innerX) (lookupA_mem hlx) q hq2
          · exact hbN
      · exact haN

theorem ginv_applyOps (ops : List (Op α)) : GInv (applyOps NewGraph ops) := by
  suffices h : ∀ g : Graph α, GInv g → GInv (applyOps g ops) from
    h _ ginv_newGraph
  induction ops with
  | nil => exact fun g hg => hg
  | cons op rest ih =>
    intro g hg
    show GInv (applyOps (applyOp g op) rest)
    apply ih
    cases op with
    | node id => exact ginv_addNode g id hg
    | edge u v w2 => exact ginv_addEdge g u v w2 hg

/-! Claim C5. -/

/-- C5: every graph reachable from the empty graph by a sequence of
AddNode and AddEdge calls has a weight-symmetric adjacency mapping
(Neighbors[x][y] = c iff Neighbors[y][x] = c), every identifier
appearing as a neighbor key is present as a top-level node, and
immediately after a further AddEdge(a, b, w) both Neighbors[a][b] and
Neighbors[b][a] hold w. -/
theorem c5_graph_invariants (ops : List (Op α)) (a b : String) (w : α) :
    (∀ x y c, edgeW (applyOps NewGraph ops) x y = some c ↔
      edgeW (applyOps NewGraph ops) y x = some c) ∧
    (∀ p ∈ (applyOps NewGraph ops).Neighbors, ∀ q ∈ p.2,
      (lookupA (applyOps NewGraph ops).Nodes q.1).isSome) ∧
    edgeW ((applyOps NewGraph ops).AddEdge a b w) a b = some w ∧
    edgeW ((applyOps NewGraph ops).AddEdge a b w) b a = some w := by
  obtain ⟨hdom, hsym, hcl⟩ := ginv_applyOps (α := α) ops
  refine ⟨hsym, hcl, ?_, ?_⟩
  · rw [edgeW_addEdge _ a b a b w hdom, if_pos (Or.inl ⟨rfl, rfl⟩)]
  · rw [edgeW_addEdge _ a b b a w hdom, if_pos (Or.inr ⟨rfl, rfl⟩)]

/-! Toward claims C6, C7, C9, C10: facts about the queue, the graph
accessors, and reachability. -/

theorem popMin_eq_none {l : List (Item α)} : popMin l = none ↔ l = [] := by
  cases l with
  | nil => simp [popMin]
  | cons it rest =>
    simp only [popMin]
    cases h : popMin rest with
    | none => simp
    | some pr =>
      obtain ⟨m, rest'⟩ := pr
      by_cases hlt : m.Priority < it.Priority <;> simp [hlt]

theorem popMin_split {l : List (Item α)} {it : Item α} {rest : List (Item α)}
    (h : popMin l = some (it, rest)) :
    ∃ l1 l2, l = l1 ++ it :: l2 ∧ rest = l1 ++ l2 := by
  induction l generalizing it rest with
  | nil => simp [popMin] at h
  | cons it0 rest0 ih =>
    simp only [popMin] at h
    cases h0 : popMin rest0 with
    | none =>
      rw [h0] at h
      simp at h
      obtain ⟨rfl, rfl⟩ := h
      exact ⟨[], [], by simp [popMin_eq_none.mp h0], by simp⟩
    | some pr =>
      obtain ⟨m, rest'⟩ := pr
      rw [h0] at h
      dsimp only at h
      by_cases hlt : m.Priority < it0.Priority
      · rw [if_pos hlt] at h
        simp at h
        obtain ⟨rfl, rfl⟩ := h
        obtain ⟨l1, l2, hl, hr⟩ := ih h0
        exact ⟨it0 :: l1, l2, by simp [hl], by simp [hr]⟩
      · rw [if_neg hlt] at h
        simp at h
        obtain ⟨rfl, rfl⟩ := h
        exact ⟨[], rest0, by simp, by simp⟩

theorem popMin_min {l : List (Item α)} {it : Item α} {rest : List (Item α)}
    (h : popMin l = some (it, rest)) :
    ∀ x ∈ l, it.Priority ≤ x.Priority := by
  induction l generalizing it rest with
  | nil => simp [popMin] at h
  | cons it0 rest0 ih =>
    simp only [popMin] at h
    cases h0 : popMin rest0 with
    | none =>
      rw [h0] at h
      simp at h
      obtain ⟨rfl, rfl⟩ := h
      intro x hx
      rcases List.mem_cons.mp hx with rfl | hx
      · exact le_refl _
      · rw [popMin_eq_none.mp h0] at hx
        simp at hx
    | some pr =>
      obtain ⟨m, rest'⟩ := pr
      rw [h0] at h
      dsimp only at h
      by_cases hlt : m.Priority < it0.Priority
      · rw [if_pos hlt] at h
        simp at h
        obtain ⟨rfl, rfl⟩ := h
        intro x hx
        rcases List.mem_cons.mp hx with rfl | hx
        · exact le_of_lt hlt
        · exact ih h0 x hx
      · rw [if_neg hlt] at h
        simp at h
        obtain ⟨rfl, rfl⟩ := h
        intro x hx
        rcases List.mem_cons.mp hx with rfl | hx
        · exact le_refl _
        · exact le_trans (not_lt.mp hlt) (ih h0 x hx)

theorem popMin_perm {l : List (Item α)} {it : Item α} {rest : List (Item α)}
    (h : popMin l = some (it, rest)) : l.Perm (it :: rest) := by
  obtain ⟨l1, l2, rfl, rfl⟩ := popMin_split h
  exact List.perm_middle

theorem popMin_mem {l : List (Item α)} {it : Item α} {rest : List (Item α)}
    (h : popMin l = some (it, rest)) :
    ∀ x ∈ l, x = it ∨ x ∈ rest := by
  intro x hx
  have := (popMin_perm h).mem_iff.mp hx
  rcases List.mem_cons.mp this with h1 | h1
  · exact Or.inl h1
  · exact Or.inr h1

theorem popMin_rest_mem {l : List (Item α)} {it : Item α}
    {rest : List (Item α)} (h : popMin l = some (it, rest)) :
    ∀ x ∈ rest, x ∈ l := by
  intro x hx
  exact (popMin_perm h).mem_iff.mpr (List.mem_cons_of_mem _ hx)

theorem popMin_length {l : List (Item α)} {it : Item α}
    {rest : List (Item α)} (h : popMin l = some (it, rest)) :
    l.length = rest.length + 1 := by
  obtain ⟨l1, l2, rfl, rfl⟩ := popMin_split h
  simp
  omega

theorem lookupA_eq_some_of_mem_nodup {β : Type} {l : List (String × β)}
    (hnd : (l.map Prod.fst).Nodup) {k : String} {v : β} (h : (k, v) ∈ l) :
    lookupA l k = some v := by
  induction l with
  | nil => simp at h
  | cons p rest ih =>
    obtain ⟨k0, v0⟩ := p
    rw [List.map_cons, List.nodup_cons] at hnd
    rcases List.mem_cons.mp h with heq | hmem
    · obtain ⟨rfl, rfl⟩ := Prod.mk.injEq .. |>.mp heq.symm
      simp [lookupA]
    · have hk : k0 ≠ k := by
        intro hk
        subst hk
        exact hnd.1 (List.mem_map.mpr ⟨(k0, v), hmem, rfl⟩)
      simp only [lookupA, if_neg hk]
      exact ih hnd.2 hmem

theorem edgeW_some_elim {g : Graph α} {v nb : String} {c : α}
    (h : edgeW g v nb = some c) :
    ∃ inner, lookupA g.Neighbors v = some inner ∧ (nb, c) ∈ inner := by
  unfold edgeW at h
  cases hv : lookupA g.Neighbors v with
  | none =>
    rw [hv] at h
    simp at h
  | some inner =>
    rw [hv] at h
    exact ⟨inner, rfl, lookupA_mem h⟩

theorem wf_edge_nodes {g : Graph α} (hwf : WFGraph g) {v nb : String} {c : α}
    (h : edgeW g v nb = some c) :
    (lookupA g.Nodes nb).isSome ∧ 0 ≤ c := by
  obtain ⟨inner, hv, hmem⟩ := edgeW_some_elim h
  exact (hwf.2.2 (v, inner) (lookupA_mem hv)).2 (nb, c) hmem

theorem wf_mem_edge {g : Graph α} (hwf : WFGraph g) {v : String}
    {inner : List (String × α)} (hv : lookupA g.Neighbors v = some inner)
    {q : String × α} (hq : q ∈ inner) : edgeW g v q.1 = some q.2 := by
  obtain ⟨nb, c⟩ := q
  unfold edgeW
  rw [hv]
  exact lookupA_eq_some_of_mem_nodup
    (hwf.2.2 (v, inner) (lookupA_mem hv)).1 hq

theorem reach_nodes {g : Graph α} (hwf : WFGraph g) {start v : String}
    (hstart : (lookupA g.Nodes start).isSome) (h : Reach g start v) :
    (lookupA g.Nodes v).isSome := by
  induction h with
  | refl => exact hstart
  | step hr he ih => exact (wf_edge_nodes hwf he).1

/-- The invariant of the Dijkstra main loop, relating a loop state to
the graph and the start node.  The fields are the facts the final-state
claims need, maintained by every loop iteration. -/
structure DInv (g : Graph α) (start : String) (st : DState α) : Prop where
  domDist : ∀ v, (lookupA st.dist v).isSome ↔ (lookupA g.Nodes v).isSome
  nonnegD : ∀ v d, lookupA st.dist v = some d → 0 ≤ d
  startZero : lookupA st.dist start = some 0
  finReach : ∀ v d, lookupA st.dist v = some d → d ≠ ⊤ → Reach g start v
  pqNodes : ∀ it ∈ st.pq, (lookupA g.Nodes it.Value).isSome
  pqDist : ∀ it ∈ st.pq, ∃ d, lookupA st.dist it.Value = some d ∧
    d ≤ it.Priority ∧ it.Priority ≠ ⊤
  visNodes : ∀ v ∈ st.visited, (lookupA g.Nodes v).isSome
  visNodup : st.visited.Nodup
  visFin : ∀ v ∈ st.visited, ∃ d, lookupA st.dist v = some d ∧ d ≠ ⊤
  q1 : ∀ v ∈ st.visited, ∀ it ∈ st.pq, ∀ d,
    lookupA st.dist v = some d → d ≤ it.Priority
  rq : ∀ v, (lookupA g.Nodes v).isSome → v ∉ st.visited →
    ∀ d, lookupA st.dist v = some d → d ≠ ⊤ →
      ∃ it ∈ st.pq, it.Value = v ∧ it.Priority ≤ d
  p2 : ∀ v ∈ st.visited, ∀ nb c, edgeW g v nb = some c →
    ∀ dv dn, lookupA st.dist v = some dv → lookupA st.dist nb = some dn →
      dn ≤ dv + (c : WithTop α)
  prevStart : lookupA st.prev start = none
  prevFin : ∀ v p, lookupA st.prev v = some p →
    ∃ d, lookupA st.dist v = some d ∧ d ≠ ⊤
  prevRank : ∀ v p, lookupA st.prev v = some p → p ∈ st.visited ∧
    (v ∈ st.visited → st.visited.indexOf p < st.visited.indexOf v)

theorem lookupA_map_top (l : List (String × Bool)) (k : String) :
    lookupA (l.map fun p => (p.1, (⊤ : WithTop α))) k =
      (lookupA l k).map fun _ => (⊤ : WithTop α) := by
  induction l with
  | nil => simp [lookupA]
  | cons p rest ih =>
    obtain ⟨k0, v0⟩ := p
    by_cases hk : k0 = k <;> simp [lookupA, hk, ih]

theorem dinv_init (g : Graph α) (start : String)
    (hstart : (lookupA g.Nodes start).isSome) :
    DInv g start ⟨initDist g start, [], [], [⟨start, 0⟩]⟩ := by
  have hinit : ∀ v, lookupA (initDist g start) v =
      if start = v then some 0
      else (lookupA g.Nodes v).map fun _ => (⊤ : WithTop α) := by
    intro v
    unfold initDist
    rw [lookupA_insertA, lookupA_map_top]
  refine ⟨?_, ?_, ?_, ?_, ?_, ?_, ?_, ?_, ?_, ?_, ?_, ?_, ?_, ?_, ?_⟩
  · intro v
    rw [hinit v]
    by_cases hv : start = v
    · subst hv
      simp [hstart]
    · simp [hv]
  · intro v d hd
    rw [hinit v] at hd
    by_cases hv : start = v
    · rw [if_pos hv] at hd
      cases hd
      exact le_refl 0
    · rw [if_neg hv] at hd
      cases h2 : lookupA g.Nodes v <;> rw [h2] at hd <;> simp at hd
      rw [← hd]
      exact le_top
  · rw [hinit start, if_pos rfl]
  · intro v d hd hne
    rw [hinit v] at hd
    by_cases hv : start = v
    · subst hv
      exact Reach.refl
    · rw [if_neg hv] at hd
      cases h2 : lookupA g.Nodes v <;> rw [h2] at hd <;> simp at hd
      exact absurd hd.symm hne
  · intro it hit
    simp at hit
    subst hit
    exact hstart
  · intro it hit
    simp at hit
    subst hit
    refine ⟨0, ?_, le_refl 0, ?_⟩
    · rw [hinit start, if_pos rfl]
    · simp
  · intro v hv
    simp at hv
  · exact List.nodup_nil
  · intro v hv
    simp at hv
  · intro v hv
    simp at hv
  · intro v hvN hvnot d hd hne
    rw [hinit v] at hd
    by_cases hv : start = v
    · subst hv
      rw [if_pos rfl] at hd
      cases hd
      exact ⟨⟨start, 0⟩, by simp, rfl, le_refl 0⟩
    · rw [if_neg hv] at hd
      cases h2 : lookupA g.Nodes v <;> rw [h2] at hd <;> simp at hd
      exact absurd hd.symm hne
  · intro v hv
    simp at hv
  · simp [lookupA]
  · intro v p hp
    simp [lookupA] at hp
  · intro v p hp
    simp [lookupA] at hp

/-- The invariant holding during the neighbor relaxation loop of a visit
step: current has just been appended to the visited list (which
previously was vold), its recorded distance p equals the priority at
which it was popped, every queue priority is at least p, and every
visited distance is at most p. -/
structure RInv (g : Graph α) (start current : String) (p : WithTop α)
    (vold : List String) (st : DState α) : Prop where
  visEq : st.visited = vold ++ [current]
  curNotOld : current ∉ vold
  curDist : lookupA st.dist current = some p
  pFin : p ≠ ⊤
  domDist : ∀ v, (lookupA st.dist v).isSome ↔ (lookupA g.Nodes v).isSome
  nonnegD : ∀ v d, lookupA st.dist v = some d → 0 ≤ d
  startZero : lookupA st.dist start = some 0
  finReach : ∀ v d, lookupA st.dist v = some d → d ≠ ⊤ → Reach g start v
  pqNodes : ∀ it ∈ st.pq, (lookupA g.Nodes it.Value).isSome
  pqDist : ∀ it ∈ st.pq, ∃ d, lookupA st.dist it.Value = some d ∧
    d ≤ it.Priority ∧ it.Priority ≠ ⊤
  pqGE : ∀ it ∈ st.pq, p ≤ it.Priority
  visNodes : ∀ v ∈ st.visited, (lookupA g.Nodes v).isSome
  visNodup : st.visited.Nodup
  visFin : ∀ v ∈ st.visited, ∃ d, lookupA st.dist v = some d ∧ d ≠ ⊤
  K1 : ∀ v ∈ st.visited, ∀ d, lookupA st.dist v = some d → d ≤ p
  rq : ∀ v, (lookupA g.Nodes v).isSome → v ∉ st.visited →
    ∀ d, lookupA st.dist v = some d → d ≠ ⊤ →
      ∃ it ∈ st.pq, it.Value = v ∧ it.Priority ≤ d
  p2old : ∀ v ∈ vold, ∀ nb c, edgeW g v nb = some c →
    ∀ dv dn, lookupA st.dist v = some dv → lookupA st.dist nb = some dn →
      dn ≤ dv + (c : WithTop α)
  prevStart : lookupA st.prev start = none
  prevFin : ∀ v pv, lookupA st.prev v = some pv →
    ∃ d, lookupA st.dist v = some d ∧ d ≠ ⊤
  prevRank : ∀ v pv, lookupA st.prev v = some pv → pv ∈ st.visited ∧
    (v ∈ st.visited → st.visited.indexOf pv < st.visited.indexOf v)

theorem relaxNbrs_cons (current nb : String) (c : α)
    (rest : List (String × α)) (st : DState α) :
    relaxNbrs current ((nb, c) :: rest) st =
      if (lookupA st.dist current).getD 0 + (c : WithTop α) <
          (lookupA st.dist nb).getD 0 then
        relaxNbrs current rest
          { st with
            dist := insertA st.dist nb
              ((lookupA st.dist current).getD 0 + (c : WithTop α)),
            prev := insertA st.prev nb current,
            pq := st.pq ++
              [⟨nb, (lookupA st.dist current).getD 0 + (c : WithTop α)⟩] }
      else relaxNbrs current rest st := rfl

theorem rinv_update_step (g : Graph α) (start current nb : String) (c : α)
    (p : WithTop α) (vold : List String) (st : DState α)
    (hinv : RInv g start current p vold st)
    (hnbN : (lookupA g.Nodes nb).isSome) (hc0 : 0 ≤ c)
    (hedge : edgeW g current nb = some c)
    {dn0 : WithTop α} (hdn0 : lookupA st.dist nb = some dn0)
    (hlt : p + (c : WithTop α) < dn0) :
    RInv g start current p vold
      { st with
        dist := insertA st.dist nb (p + (c : WithTop α)),
        prev := insertA st.prev nb current,
        pq := st.pq ++ [⟨nb, p + (c : WithTop α)⟩] } ∧
    nb ∉ st.visited := by
  have hc0' : (0 : WithTop α) ≤ (c : WithTop α) := by exact_mod_cast hc0
  have hple : p ≤ p + (c : WithTop α) := le_add_of_nonneg_right hc0'
  have hnbvis : nb ∉ st.visited := by
    intro hmem
    exact absurd hlt
      (not_lt.mpr (le_trans (hinv.K1 nb hmem dn0 hdn0) hple))
  have hcurvis : current ∈ st.visited := by
    rw [hinv.visEq]
    simp
  have hnbcur : nb ≠ current := fun h => hnbvis (h ▸ hcurvis)
  have hp0 : 0 ≤ p := hinv.nonnegD current p hinv.curDist
  have halt0 : 0 ≤ p + (c : WithTop α) := add_nonneg hp0 hc0'
  have hnbstart : nb ≠ start := by
    intro h
    subst h
    rw [hinv.startZero] at hdn0
    cases hdn0
    exact absurd hlt (not_lt.mpr halt0)
  have haltfin : p + (c : WithTop α) ≠ ⊤ :=
    WithTop.add_ne_top.mpr ⟨hinv.pFin, WithTop.coe_ne_top⟩
  have hdist' : ∀ v, lookupA (insertA st.dist nb (p + (c : WithTop α))) v =
      if nb = v then some (p + (c : WithTop α)) else lookupA st.dist v :=
    fun v => lookupA_insertA st.dist nb v _
  have hprev' : ∀ v, lookupA (insertA st.prev nb current) v =
      if nb = v then some current else lookupA st.prev v :=
    fun v => lookupA_insertA st.prev nb v _
  refine ⟨⟨hinv.visEq, hinv.curNotOld, ?_, hinv.pFin, ?_, ?_, ?_, ?_, ?_,
    ?_, ?_, hinv.visNodes, hinv.visNodup, ?_, ?_, ?_, ?_, ?_, ?_, ?_⟩,
    hnbvis⟩
  · rw [hdist' current, if_neg hnbcur]
    exact hinv.curDist
  · intro v
    rw [hdist' v]
    by_cases h : nb = v
    · subst h
      simp [hnbN]
    · rw [if_neg h]
      exact hinv.domDist v
  · intro v d hd
    rw [hdist' v] at hd
    by_cases h : nb = v
    · rw [if_pos h] at hd
      cases hd
      exact halt0
    · rw [if_neg h] at hd
      exact hinv.nonnegD v d hd
  · rw [hdist' start, if_neg hnbstart]
    exact hinv.startZero
  · intro v d hd hne
    rw [hdist' v] at hd
    by_cases h : nb = v
    · subst h
      exact (hinv.finReach current p hinv.curDist hinv.pFin).step hedge
    · rw [if_neg h] at hd
      exact hinv.finReach v d hd hne
  · intro it hit
    rcases List.mem_append.mp hit with hold | hnew
    · exact hinv.pqNodes it hold
    · simp at hnew
      subst hnew
      exact hnbN
  · intro it hit
    rcases List.mem_append.mp hit with hold | hnew
    · obtain ⟨d, hd, hdp, hfin⟩ := hinv.pqDist it hold
      by_cases h : nb = it.Value
      · have hdd : d = dn0 := by
          rw [← h] at hd
          rw [hd] at hdn0
          exact Option.some_injective _ hdn0
        refine ⟨p + (c : WithTop α), ?_, ?_, hfin⟩
        · rw [hdist' it.Value, if_pos h]
        · exact le_of_lt (lt_of_lt_of_le hlt (hdd ▸ hdp))
      · refine ⟨d, ?_, hdp, hfin⟩
        rw [hdist' it.Value, if_neg h]
        exact hd
    · simp at hnew
      subst hnew
      refine ⟨p + (c : WithTop α), ?_, le_refl _, haltfin⟩
      rw [hdist' nb, if_pos rfl]
  · intro it hit
    rcases List.mem_append.mp hit with hold | hnew
    · exact hinv.pqGE it hold
    · simp at hnew
      subst hnew
      exact hple
  · intro v hv
    obtain ⟨d, hd, hne⟩ := hinv.visFin v hv
    refine ⟨d, ?_, hne⟩
    rw [hdist' v, if_neg (fun (h : nb = v) => hnbvis (h.symm ▸ hv))]
    exact hd
  · intro v hv d hd
    rw [hdist' v, if_neg (fun (h : nb = v) => hnbvis (h.symm ▸ hv))] at hd
    exact hinv.K1 v hv d hd
  · intro v hN hnot d hd hne
    rw [hdist' v] at hd
    by_cases h : nb = v
    · subst h
      rw [if_pos rfl] at hd
      cases hd
      exact ⟨⟨nb, p + (c : WithTop α)⟩, by simp, rfl, le_refl _⟩
    · rw [if_neg h] at hd
      obtain ⟨it, hit, hval, hp2⟩ := hinv.rq v hN hnot d hd hne
      exact ⟨it, List.mem_append.mpr (Or.inl hit), hval, hp2⟩
  · intro v hv nb' c' hedge' dv dn hdv hdn
    have hvvis : v ∈ st.visited := by
      rw [hinv.visEq]
      exact List.mem_append.mpr (Or.inl hv)
    rw [hdist' v, if_neg (fun (h : nb = v) => hnbvis (h.symm ▸ hvvis))] at hdv
    rw [hdist' nb'] at hdn
    by_cases h : nb = nb'
    · rw [if_pos h] at hdn
      cases hdn
      subst h
      have hold := hinv.p2old v hv nb c' hedge' dv dn0 hdv hdn0
      exact le_trans (le_of_lt hlt) hold
    · rw [if_neg h] at hdn
      exact hinv.p2old v hv nb' c' hedge' dv dn hdv hdn
  · rw [hprev' start, if_neg hnbstart]
    exact hinv.prevStart
  · intro v pv hpv
    rw [hprev' v] at hpv
    by_cases h : nb = v
    · subst h
      refine ⟨p + (c : WithTop α), ?_, haltfin⟩
      rw [hdist' nb, if_pos rfl]
    · rw [if_neg h] at hpv
      obtain ⟨d, hd, hne⟩ := hinv.prevFin v pv hpv
      refine ⟨d, ?_, hne⟩
      rw [hdist' v, if_neg h]
      exact hd
  · intro v pv hpv
    rw [hprev' v] at hpv
    by_cases h : nb = v
    · subst h
      rw [if_pos rfl] at hpv
      cases hpv
      exact ⟨hcurvis, fun hmem => absurd hmem hnbvis⟩
    · rw [if_neg h] at hpv
      exact hinv.prevRank v pv hpv

theorem relaxNbrs_spec (g : Graph α) (start current : String)
    (p : WithTop α) (vold : List String) (rest : List (String × α))
    (st : DState α)
    (hrest : ∀ q ∈ rest, (lookupA g.Nodes q.1).isSome ∧ 0 ≤ q.2 ∧
      edgeW g current q.1 = some q.2)
    (hinv : RInv g start current p vold st) :
    RInv g start current p vold (relaxNbrs current rest st) ∧
    (∀ v d, lookupA st.dist v = some d →
      ∃ d', lookupA (relaxNbrs current rest st).dist v = some d' ∧ d' ≤ d) ∧
    (∀ q ∈ rest, ∀ dn,
      lookupA (relaxNbrs current rest st).dist q.1 = some dn →
      dn ≤ p + (q.2 : WithTop α)) := by
  induction rest generalizing st with
  | nil =>
    exact ⟨hinv, fun v d hd => ⟨d, hd, le_refl d⟩, fun q hq => by simp at hq⟩
  | cons q0 rest ih =>
    obtain ⟨nb, c⟩ := q0
    obtain ⟨hnbN, hc0, hedge⟩ := hrest (nb, c) (List.mem_cons_self _ _)
    have hrest' := fun q hq => hrest q (List.mem_cons_of_mem _ hq)
    obtain ⟨dn0, hdn0⟩ :=
      Option.isSome_iff_exists.mp ((hinv.domDist nb).mpr hnbN)
    have hgetc : (lookupA st.dist current).getD 0 = p := by
      rw [hinv.curDist]
      rfl
    have hgetn : (lookupA st.dist nb).getD 0 = dn0 := by
      rw [hdn0]
      rfl
    rw [relaxNbrs_cons, hgetc, hgetn]
    by_cases hlt : p + (c : WithTop α) < dn0
    · rw [if_pos hlt]
      obtain ⟨hinv', hnbvis⟩ := rinv_update_step g start current nb c p vold
        st hinv hnbN hc0 hedge hdn0 hlt
      obtain ⟨hinvF, hmono, hbound⟩ := ih _ hrest' hinv'
      refine ⟨hinvF, ?_, ?_⟩
      · intro v d hd
        by_cases h : nb = v
        · subst h
          have hdd : d = dn0 := Option.some_injective _ (hd ▸ hdn0)
          obtain ⟨d', hd', hle'⟩ := hmono nb (p + (c : WithTop α))
            (by rw [lookupA_insertA]; simp)
          exact ⟨d', hd', le_trans hle' (hdd ▸ le_of_lt hlt)⟩
        · obtain ⟨d', hd', hle'⟩ := hmono v d
            (by rw [lookupA_insertA, if_neg h]; exact hd)
          exact ⟨d', hd', hle'⟩
      · intro q hq dn hdn
        rcases List.mem_cons.mp hq with rfl | hq2
        · obtain ⟨d', hd', hle'⟩ := hmono nb (p + (c : WithTop α))
            (by rw [lookupA_insertA]; simp)
          have : dn = d' := Option.some_injective _ (hdn ▸ hd')
          exact this ▸ hle'
        · exact hbound q hq2 dn hdn
    · rw [if_neg hlt]
      obtain ⟨hinvF, hmono, hbound⟩ := ih st hrest' hinv
      refine ⟨hinvF, hmono, ?_⟩
      intro q hq dn hdn
      rcases List.mem_cons.mp hq with rfl | hq2
      · obtain ⟨d', hd', hle'⟩ := hmono nb dn0 hdn0
        have hdd : dn = d' := Option.some_injective _ (hdn ▸ hd')
        exact le_trans (hdd ▸ hle') (not_lt.mp hlt)
      · exact hbound q hq2 dn hdn

theorem dinv_skip (g : Graph α) (start : String) (st : DState α)
    (hinv : DInv g start st) {it : Item α} {rest : List (Item α)}
    (hpop : popMin st.pq = some (it, rest))
    (hvis : it.Value ∈ st.visited) :
    DInv g start { st with pq := rest } := by
  refine ⟨hinv.domDist, hinv.nonnegD, hinv.startZero, hinv.finReach,
    ?_, ?_, hinv.visNodes, hinv.visNodup, hinv.visFin, ?_, ?_, hinv.p2,
    hinv.prevStart, hinv.prevFin, hinv.prevRank⟩
  · exact fun it2 hit2 => hinv.pqNodes it2 (popMin_rest_mem hpop it2 hit2)
  · exact fun it2 hit2 => hinv.pqDist it2 (popMin_rest_mem hpop it2 hit2)
  · exact fun v hv it2 hit2 d hd =>
      hinv.q1 v hv it2 (popMin_rest_mem hpop it2 hit2) d hd
  · intro v hN hnot d hd hne
    obtain ⟨it2, hit2, hval2, hle2⟩ := hinv.rq v hN hnot d hd hne
    rcases popMin_mem hpop it2 hit2 with rfl | hmem
    · exact absurd (hval2 ▸ hvis) hnot
    · exact ⟨it2, hmem, hval2, hle2⟩

theorem dinv_pop_visit (g : Graph α) (start : String) (st : DState α)
    (hinv : DInv g start st) {it : Item α} {rest : List (Item α)}
    (hpop : popMin st.pq = some (it, rest))
    (hnvis : it.Value ∉ st.visited) :
    RInv g start it.Value it.Priority st.visited
      { st with pq := rest, visited := st.visited ++ [it.Value] } := by
  have hitmem : it ∈ st.pq :=
    (popMin_perm hpop).symm.mem_iff.mp (List.mem_cons_self _ _)
  obtain ⟨d, hd, hdP, hPfin⟩ := hinv.pqDist it hitmem
  have hdfin : d ≠ ⊤ := fun h => hPfin (top_le_iff.mp (h ▸ hdP))
  obtain ⟨it', hit', hval, hPle⟩ :=
    hinv.rq it.Value (hinv.pqNodes it hitmem) hnvis d hd hdfin
  have hdeq : d = it.Priority :=
    le_antisymm hdP (le_trans (popMin_min hpop it' hit') hPle)
  have hcur : lookupA st.dist it.Value = some it.Priority := hdeq ▸ hd
  refine ⟨rfl, hnvis, hcur, hPfin, hinv.domDist, hinv.nonnegD,
    hinv.startZero, hinv.finReach, ?_, ?_, ?_, ?_, ?_, ?_, ?_, ?_,
    hinv.p2, hinv.prevStart, hinv.prevFin, ?_⟩
  · exact fun it2 hit2 => hinv.pqNodes it2 (popMin_rest_mem hpop it2 hit2)
  · exact fun it2 hit2 => hinv.pqDist it2 (popMin_rest_mem hpop it2 hit2)
  · exact fun it2 hit2 =>
      popMin_min hpop it2 (popMin_rest_mem hpop it2 hit2)
  · intro v hv
    rcases List.mem_append.mp hv with hv | hv
    · exact hinv.visNodes v hv
    · simp at hv
      subst hv
      exact hinv.pqNodes it hitmem
  · rw [List.nodup_append]
    refine ⟨hinv.visNodup, List.nodup_singleton _, ?_⟩
    intro x hx hx2
    simp at hx2
    subst hx2
    exact hnvis hx
  · intro v hv
    rcases List.mem_append.mp hv with hv | hv
    · exact hinv.visFin v hv
    · simp at hv
      subst hv
      exact ⟨it.Priority, hcur, hPfin⟩
  · intro v hv d2 hd2
    rcases List.mem_append.mp hv with hv | hv
    · exact hinv.q1 v hv it hitmem d2 hd2
    · simp at hv
      subst hv
      rw [hcur] at hd2
      cases hd2
      exact le_refl _
  · intro v hN hnot d2 hd2 hne2
    have hnot1 : v ∉ st.visited :=
      fun h => hnot (List.mem_append.mpr (Or.inl h))
    have hnotit : v ≠ it.Value :=
      fun h => hnot (List.mem_append.mpr (Or.inr (by simp [h])))
    obtain ⟨it2, hit2, hval2, hle2⟩ := hinv.rq v hN hnot1 d2 hd2 hne2
    rcases popMin_mem hpop it2 hit2 with rfl | hmem
    · exact absurd hval2 (by simpa using hnotit.symm)
    · exact ⟨it2, hmem, hval2, hle2⟩
  · intro v pv hpv
    obtain ⟨hmem, himpl⟩ := hinv.prevRank v pv hpv
    refine ⟨List.mem_append.mpr (Or.inl hmem), ?_⟩
    intro hv
    rcases List.mem_append.mp hv with hv | hv
    · rw [List.indexOf_append_of_mem hmem, List.indexOf_append_of_mem hv]
      exact himpl hv
    · simp at hv
      subst hv
      rw [List.indexOf_append_of_mem hmem,
        List.indexOf_append_of_not_mem hnvis]
      simp only [List.indexOf_cons_self, Nat.add_zero]
      exact List.indexOf_lt_length.mpr hmem

theorem rinv_to_dinv (g : Graph α) (start current : String) (p : WithTop α)
    (vold : List String) (st : DState α)
    (hinv : RInv g start current p vold st)
    (hcurbound : ∀ nb c, edgeW g current nb = some c → ∀ dn,
      lookupA st.dist nb = some dn → dn ≤ p + (c : WithTop α)) :
    DInv g start st := by
  refine ⟨hinv.domDist, hinv.nonnegD, hinv.startZero, hinv.finReach,
    hinv.pqNodes, hinv.pqDist, hinv.visNodes, hinv.visNodup, hinv.visFin,
    ?_, hinv.rq, ?_, hinv.prevStart, hinv.prevFin, hinv.prevRank⟩
  · intro v hv it hit d hd
    exact le_trans (hinv.K1 v hv d hd) (hinv.pqGE it hit)
  · intro v hv nb c hedge dv dn hdv hdn
    have hv2 : v ∈ vold ++ [current] := hinv.visEq ▸ hv
    rcases List.mem_append.mp hv2 with hv2 | hv2
    · exact hinv.p2old v hv2 nb c hedge dv dn hdv hdn
    · simp at hv2
      subst hv2
      have hdvp : dv = p := Option.some_injective _ (hdv ▸ hinv.curDist)
      exact hdvp ▸ hcurbound nb c hedge dn hdn

theorem dijkstraLoop_inv (g : Graph α) (start : String) (hwf : WFGraph g)
    (fuel : Nat) (st st' : DState α) (hinv : DInv g start st)
    (hres : dijkstraLoop g fuel st = some st') :
    DInv g start st' ∧ st'.pq = [] := by
  induction fuel generalizing st with
  | zero =>
    unfold dijkstraLoop at hres
    cases hpop : popMin st.pq with
    | none =>
      rw [hpop] at hres
      cases hres
      exact ⟨hinv, popMin_eq_none.mp hpop⟩
    | some pr =>
      rw [hpop] at hres
      simp at hres
  | succ fuel ih =>
    unfold dijkstraLoop at hres
    cases hpop : popMin st.pq with
    | none =>
      rw [hpop] at hres
      cases hres
      exact ⟨hinv, popMin_eq_none.mp hpop⟩
    | some pr =>
      obtain ⟨it, rest⟩ := pr
      rw [hpop] at hres
      dsimp only at hres
      by_cases hvis : it.Value ∈ st.visited
      · rw [if_pos hvis] at hres
        exact ih _ (dinv_skip g start st hinv hpop hvis) hres
      · rw [if_neg hvis] at hres
        have hr := dinv_pop_visit g start st hinv hpop hvis
        have hrest : ∀ q ∈ (lookupA g.Neighbors it.Value).getD [],
            (lookupA g.Nodes q.1).isSome ∧ 0 ≤ q.2 ∧
            edgeW g it.Value q.1 = some q.2 := by
          intro q hq
          cases hnb : lookupA g.Neighbors it.Value with
          | none =>
            rw [hnb] at hq
            simp at hq
          | some inner =>
            rw [hnb] at hq
            simp at hq
            have hcl := (hwf.2.2 (it.Value, inner) (lookupA_mem hnb)).2 q hq
            exact ⟨hcl.1, hcl.2, wf_mem_edge hwf hnb hq⟩
        obtain ⟨hinv2, hmono, hbound⟩ := relaxNbrs_spec g start it.Value
          it.Priority st.visited _ _ hrest hr
        refine ih _ (rinv_to_dinv g start it.Value it.Priority st.visited _
          hinv2 ?_) hres
        intro nb c hedge dn hdn
        obtain ⟨inner, hlk, hmem⟩ := edgeW_some_elim hedge
        have heq : (lookupA g.Neighbors it.Value).getD [] = inner := by
          rw [hlk]
          rfl
        exact hbound (nb, c) (heq ▸ hmem) dn hdn

theorem dijkstra_final (g : Graph α) (start : String) (hwf : WFGraph g)
    {dist : List (String × WithTop α)} {prev : List (String × String)}
    (hres : Dijkstra g start = .ok (dist, prev)) :
    ∃ st', DInv g start st' ∧ st'.pq = [] ∧ st'.dist = dist ∧
      st'.prev = prev := by
  unfold Dijkstra at hres
  by_cases hstart : (lookupA g.Nodes start).isSome
  · rw [if_pos hstart] at hres
    cases hloop : dijkstraLoop g (dijkstraFuel g)
        ⟨initDist g start, [], [], [⟨start, 0⟩]⟩ with
    | none =>
      rw [hloop] at hres
      simp at hres
    | some st2 =>
      rw [hloop] at hres
      simp at hres
      obtain ⟨hinv', hpq⟩ := dijkstraLoop_inv g start hwf _ _ st2
        (dinv_init g start hstart) hloop
      exact ⟨st2, hinv', hpq, hres.1, hres.2⟩
  · rw [if_neg hstart] at hres
    simp at hres

theorem final_unvisited_top (g : Graph α) (start : String) (st : DState α)
    (hinv : DInv g start st) (hpq : st.pq = []) :
    ∀ v, (lookupA g.Nodes v).isSome → v ∉ st.visited →
      lookupA st.dist v = some ⊤ := by
  intro v hN hnot
  obtain ⟨d, hd⟩ := Option.isSome_iff_exists.mp ((hinv.domDist v).mpr hN)
  by_cases hne : d = ⊤
  · rw [hd, hne]
  · obtain ⟨it, hit, _, _⟩ := hinv.rq v hN hnot d hd hne
    rw [hpq] at hit
    simp at hit

theorem final_reach_visited (g : Graph α) (start : String) (st : DState α)
    (hwf : WFGraph g) (hstart : (lookupA g.Nodes start).isSome)
    (hinv : DInv g start st) (hpq : st.pq = []) :
    ∀ v, Reach g start v →
      v ∈ st.visited ∧ ∃ d, lookupA st.dist v = some d ∧ d ≠ ⊤ := by
  intro v hr
  induction hr with
  | refl =>
    have h0 := hinv.startZero
    have hfin : (0 : WithTop α) ≠ ⊤ := by simp
    refine ⟨?_, 0, h0, hfin⟩
    by_contra hnot
    have := final_unvisited_top g start st hinv hpq start hstart hnot
    rw [h0] at this
    exact hfin (Option.some_injective _ this)
  | step hr2 he ih =>
    obtain ⟨hvis, dv, hdv, hnev⟩ := ih
    have hwN := (wf_edge_nodes hwf he).1
    obtain ⟨dn, hdn⟩ := Option.isSome_iff_exists.mp ((hinv.domDist _).mpr hwN)
    have hbound := hinv.p2 _ hvis _ _ he dv dn hdv hdn
    have hnen : dn ≠ ⊤ := by
      intro h
      rw [h, top_le_iff] at hbound
      exact WithTop.add_ne_top.mpr ⟨hnev, WithTop.coe_ne_top⟩ hbound
    refine ⟨?_, dn, hdn, hnen⟩
    by_contra hnot
    have := final_unvisited_top g start st hinv hpq _ hwN hnot
    rw [hdn] at this
    exact hnen (Option.some_injective _ this)

theorem reconstructLoop_eq (previous : List (String × String))
    (start : String) (fuel : Nat) (current : String) (path : List String) :
    reconstructLoop previous start fuel current path =
      if current = start then some (.ok (start :: path))
      else
        match fuel with
        | 0 => none
        | fuel' + 1 =>
          match lookupA previous current with
          | none => some (.error .NoPathFound)
          | some p => reconstructLoop previous start fuel' p
              (current :: path) := by
  cases fuel <;> rfl

/-! Claim C6. -/

/-- C6: for every well-formed graph with non-negative weights and
present source, the distance map returned by Dijkstra assigns 0 to the
source, assigns infinity (⊤) to every node of the graph unreachable
from the source, and ReconstructPath from the source to such a node
fails with NoPathFound whatever the fuel bound. -/
theorem c6_source_zero_unreachable_inf (g : Graph α) (start target : String)
    (dist : List (String × WithTop α)) (prev : List (String × String))
    (hwf : WFGraph g) (hstart : (lookupA g.Nodes start).isSome)
    (hres : Dijkstra g start = .ok (dist, prev))
    (htarget : (lookupA g.Nodes target).isSome)
    (hunreach : ¬Reach g start target) :
    lookupA dist start = some 0 ∧
    lookupA dist target = some ⊤ ∧
    ∀ fuel, ReconstructPath (fuel + 1) prev start target =
      some (.error .NoPathFound) := by
  obtain ⟨st', hinv, hpq, hd, hp⟩ := dijkstra_final g start hwf hres
  subst hd
  subst hp
  have hnotvis : target ∉ st'.visited := by
    intro h
    obtain ⟨d, hd2, hne⟩ := hinv.visFin _ h
    exact hunreach (hinv.finReach _ d hd2 hne)
  refine ⟨hinv.startZero,
    final_unvisited_top g start st' hinv hpq target htarget hnotvis, ?_⟩
  intro fuel
  have hne : ¬(target = start) := fun h => hunreach (h ▸ Reach.refl)
  have hprev : lookupA st'.prev target = none := by
    cases hp2 : lookupA st'.prev target with
    | none => rfl
    | some pv =>
      obtain ⟨d, hd2, hne2⟩ := hinv.prevFin target pv hp2
      exact absurd (hinv.finReach target d hd2 hne2) hunreach
  show reconstructLoop st'.prev start (fuel + 1) target [] = _
  rw [reconstructLoop_eq, if_neg hne]
  dsimp only
  rw [hprev]

/-! Claim C7. -/

/-- C7: for every well-formed graph with non-negative weights and
present source, the returned distance map satisfies the triangle
inequality along every edge between nodes reachable from the source. -/
theorem c7_triangle_inequality (g : Graph α) (start v w : String) (c : α)
    (dist : List (String × WithTop α)) (prev : List (String × String))
    (hwf : WFGraph g) (hstart : (lookupA g.Nodes start).isSome)
    (hres : Dijkstra g start = .ok (dist, prev))
    (hrv : Reach g start v) (hrw : Reach g start w)
    (hedge : edgeW g v w = some c) :
    ∃ dv dw, lookupA dist v = some dv ∧ lookupA dist w = some dw ∧
      dw ≤ dv + (c : WithTop α) := by
  obtain ⟨st', hinv, hpq, hd, hp⟩ := dijkstra_final g start hwf hres
  subst hd
  subst hp
  obtain ⟨hvis, dv, hdv, _⟩ :=
    final_reach_visited g start st' hwf hstart hinv hpq v hrv
  have hwN := (wf_edge_nodes hwf hedge).1
  obtain ⟨dn, hdn⟩ := Option.isSome_iff_exists.mp ((hinv.domDist w).mpr hwN)
  exact ⟨dv, dn, hdv, hdn, hinv.p2 v hvis w c hedge dv dn hdv hdn⟩

/-! Claim C9. -/

/-- C9: for every well-formed graph with non-negative weights and
present source, the predecessor map returned by Dijkstra has no entry
for the start node, and every node with a predecessor entry has a
finite recorded distance. -/
theorem c9_predecessor_map_invariants (g : Graph α) (start : String)
    (dist : List (String × WithTop α)) (prev : List (String × String))
    (hwf : WFGraph g) (hstart : (lookupA g.Nodes start).isSome)
    (hres : Dijkstra g start = .ok (dist, prev)) :
    lookupA prev start = none ∧
    ∀ v p, lookupA prev v = some p →
      ∃ d, lookupA dist v = some d ∧ d ≠ ⊤ := by
  obtain ⟨st', hinv, hpq, hd, hp⟩ := dijkstra_final g start hwf hres
  subst hd
  subst hp
  exact ⟨hinv.prevStart, hinv.prevFin⟩

/-! Claim C10. -/

theorem reconstruct_terminates_of_rank (previous : List (String × String))
    (start : String) (visited : List String)
    (hrank : ∀ v pv, lookupA previous v = some pv → pv ∈ visited ∧
      (v ∈ visited → visited.indexOf pv < visited.indexOf v)) :
    ∀ current path, ∃ fuel,
      (reconstructLoop previous start fuel current path).isSome := by
  have key : ∀ n current path,
      (if current ∈ visited then visited.indexOf current + 1
        else visited.length + 1) ≤ n →
      ∃ fuel, (reconstructLoop previous start fuel current path).isSome := by
    intro n
    induction n with
    | zero =>
      intro current path h
      by_cases hc : current ∈ visited <;> simp [hc] at h
    | succ n ih =>
      intro current path hle
      by_cases hcs : current = start
      · refine ⟨0, ?_⟩
        rw [reconstructLoop_eq, if_pos hcs]
        rfl
      · cases hp : lookupA previous current with
        | none =>
          refine ⟨1, ?_⟩
          rw [reconstructLoop_eq, if_neg hcs]
          dsimp only
          rw [hp]
          rfl
        | some pv =>
          obtain ⟨hpvmem, himpl⟩ := hrank current pv hp
          have hidx : visited.indexOf pv < visited.length :=
            List.indexOf_lt_length.mpr hpvmem
          have hmlt : (if pv ∈ visited then visited.indexOf pv + 1
              else visited.length + 1) ≤ n := by
            rw [if_pos hpvmem]
            by_cases hc : current ∈ visited
            · have := himpl hc
              rw [if_pos hc] at hle
              omega
            · rw [if_neg hc] at hle
              omega
          obtain ⟨fuel, hf⟩ := ih pv (current :: path) hmlt
          refine ⟨fuel + 1, ?_⟩
          rw [reconstructLoop_eq, if_neg hcs]
          dsimp only
          rw [hp]
          exact hf
  intro current path
  exact key _ current path (le_refl _)

/-- C10: for every well-formed graph with non-negative weights and
present source, following predecessor links backward from any target
through the predecessor map returned by Dijkstra reaches the start node
or a node with no predecessor entry after finitely many steps: some
finite fuel bound makes ReconstructPath return a result (the map is
acyclic), so the Go walk terminates. -/
theorem c10_reconstruct_always_terminates (g : Graph α) (start : String)
    (dist : List (String × WithTop α)) (prev : List (String × String))
    (hwf : WFGraph g) (hstart : (lookupA g.Nodes start).isSome)
    (hres : Dijkstra g start = .ok (dist, prev)) :
    ∀ target, ∃ fuel, (ReconstructPath fuel prev start target).isSome := by
  obtain ⟨st', hinv, hpq, hd, hp⟩ := dijkstra_final g start hwf hres
  subst hd
  subst hp
  intro target
  exact reconstruct_terminates_of_rank st'.prev start st'.visited
    hinv.prevRank target []

theorem gWitness_reach_mem (v : String) (h : Reach gWitness sA v) :
    v = sA ∨ v = sB := by
  induction h with
  | refl => exact Or.inl rfl
  | step hr he ih =>
    rename_i v' w' c'
    rcases ih with rfl | rfl
    · right
      obtain ⟨inner, hlk, hmem⟩ := edgeW_some_elim he
      have hval : lookupA gWitness.Neighbors sA =
          some [(sB, (1 : ℤ))] := by decide
      have hinner : inner = [(sB, (1 : ℤ))] :=
        Option.some_injective _ (hlk ▸ hval)
      subst hinner
      simp at hmem
      exact hmem.1
    · left
      obtain ⟨inner, hlk, hmem⟩ := edgeW_some_elim he
      have hval : lookupA gWitness.Neighbors sB =
          some [(sA, (1 : ℤ))] := by decide
      have hinner : inner = [(sA, (1 : ℤ))] :=
        Option.some_injective _ (hlk ▸ hval)
      subst hinner
      simp at hmem
      exact hmem.1

theorem gWitness_unreach_C : ¬Reach gWitness sA sC := by
  intro h
  rcases gWitness_reach_mem sC h with h2 | h2 <;> exact absurd h2 (by decide)

/-- C6 witness: c6_source_zero_unreachable_inf on the concrete witness
graph, source A and unreachable target C. -/
theorem c6_witness :
    lookupA [(sA, (0 : WithTop ℤ)), (sB, 1), (sC, ⊤)] sA = some 0 ∧
    lookupA [(sA, (0 : WithTop ℤ)), (sB, 1), (sC, ⊤)] sC = some ⊤ ∧
    ReconstructPath 1 [(sB, sA)] sA sC = some (.error .NoPathFound) := by
  obtain ⟨h1, h2, h3⟩ := c6_source_zero_unreachable_inf gWitness sA sC
    [(sA, (0 : WithTop ℤ)), (sB, 1), (sC, ⊤)] [(sB, sA)]
    (by decide) (by decide) (by decide) (by decide) gWitness_unreach_C
  exact ⟨h1, h2, h3 0⟩

/-- C7 witness: c7_triangle_inequality on the witness graph along the
edge A-B. -/
theorem c7_witness :
    ∃ dv dw, lookupA [(sA, (0 : WithTop ℤ)), (sB, 1), (sC, ⊤)] sA = some dv ∧
      lookupA [(sA, (0 : WithTop ℤ)), (sB, 1), (sC, ⊤)] sB = some dw ∧
      dw ≤ dv + ((1 : ℤ) : WithTop ℤ) :=
  c7_triangle_inequality gWitness sA sA sB 1
    [(sA, (0 : WithTop ℤ)), (sB, 1), (sC, ⊤)] [(sB, sA)]
    (by decide) (by decide) (by decide) Reach.refl
    (Reach.refl.step (show edgeW gWitness sA sB = some 1 by decide))
    (by decide)

/-- C9 witness: c9_predecessor_map_invariants on the witness graph. -/
theorem c9_witness :
    lookupA [(sB, sA)] sA = none ∧
    ∀ v p, lookupA [(sB, sA)] v = some p →
      ∃ d, lookupA [(sA, (0 : WithTop ℤ)), (sB, 1), (sC, ⊤)] v = some d ∧
        d ≠ ⊤ :=
  c9_predecessor_map_invariants gWitness sA
    [(sA, (0 : WithTop ℤ)), (sB, 1), (sC, ⊤)] [(sB, sA)]
    (by decide) (by decide) (by decide)

/-- C10 witness: c10_reconstruct_always_terminates on the witness graph
with target B. -/
theorem c10_witness :
    ∃ fuel, (ReconstructPath fuel [(sB, sA)] sA sB).isSome :=
  c10_reconstruct_always_terminates gWitness sA
    [(sA, (0 : WithTop ℤ)), (sB, 1), (sC, ⊤)] [(sB, sA)]
    (by decide) (by decide) (by decide) sB

/-! The fuel bound of the embedding is sufficient: the Go loop performs
one pop for the initial entry plus at most one pop per push, and pushes
only happen while marking a node visited for the first time, at most one
per adjacency entry, so dijkstraFuel pops always empty the queue and the
FuelExhausted artifact of the embedding never occurs
(dijkstra_never_exhausts below). -/

theorem relaxNbrs_visited_eq (current : String) (rest : List (String × α))
    (st : DState α) : (relaxNbrs current rest st).visited = st.visited := by
  induction rest generalizing st with
  | nil => rfl
  | cons q rest ih =>
    obtain ⟨nb, c⟩ := q
    rw [relaxNbrs_cons]
    split_ifs <;> simp [ih]

theorem relaxNbrs_pq_len (current : String) (rest : List (String × α))
    (st : DState α) :
    (relaxNbrs current rest st).pq.length ≤ st.pq.length + rest.length := by
  induction rest generalizing st with
  | nil => exact le_of_eq rfl
  | cons q rest ih =>
    obtain ⟨nb, c⟩ := q
    rw [relaxNbrs_cons]
    split_ifs
    · refine le_trans (ih _) ?_
      dsimp only
      simp only [List.length_append, List.length_cons, List.length_nil]
      omega
    · refine le_trans (ih _) ?_
      simp only [List.length_cons]
      omega

/-- The total adjacency length still chargeable to future visit steps:
entries of the adjacency map whose key is not yet visited. -/
def remDeg (g : Graph α) (visited : List String) : Nat :=
  ((g.Neighbors.filter fun p => !(decide (p.1 ∈ visited))).map
    fun p => p.2.length).sum

theorem sum_filter_append_le (m : List (String × List (String × α)))
    (visited : List String) (current : String) :
    ((m.filter fun p => !(decide (p.1 ∈ visited ++ [current]))).map
      fun p => p.2.length).sum ≤
    ((m.filter fun p => !(decide (p.1 ∈ visited))).map
      fun p => p.2.length).sum := by
  induction m with
  | nil => simp
  | cons p rest ih =>
    obtain ⟨k, inner⟩ := p
    simp only [List.filter_cons]
    by_cases hv : k ∈ visited
    · rw [if_neg (show ¬((!decide (k ∈ visited ++ [current])) = true) by
          simp [hv]),
        if_neg (show ¬((!decide (k ∈ visited)) = true) by simp [hv])]
      exact ih
    · by_cases hc : k = current
      · subst hc
        rw [if_neg (show ¬((!decide (k ∈ visited ++ [k])) = true) by simp),
          if_pos (show (!decide (k ∈ visited)) = true by simp [hv])]
        simp only [List.map_cons, List.sum_cons]
        exact le_trans ih (Nat.le_add_left _ _)
      · rw [if_pos (show (!decide (k ∈ visited ++ [current])) = true by
            simp [hv, hc]),
          if_pos (show (!decide (k ∈ visited)) = true by simp [hv])]
        simp only [List.map_cons, List.sum_cons]
        exact Nat.add_le_add_left ih _

theorem remDeg_step (m : List (String × List (String × α)))
    (visited : List String) (current : String) (hnot : current ∉ visited) :
    ((m.filter fun p => !(decide (p.1 ∈ visited ++ [current]))).map
      fun p => p.2.length).sum + ((lookupA m current).getD []).length ≤
    ((m.filter fun p => !(decide (p.1 ∈ visited))).map
      fun p => p.2.length).sum := by
  induction m with
  | nil => simp [lookupA]
  | cons p rest ih =>
    obtain ⟨k, inner⟩ := p
    simp only [List.filter_cons]
    by_cases hk : k = current
    · subst hk
      have hlk : lookupA ((k, inner) :: rest) k = some inner := by
        simp [lookupA]
      rw [hlk]
      rw [if_neg (show ¬((!decide (k ∈ visited ++ [k])) = true) by simp),
        if_pos (show (!decide (k ∈ visited)) = true by simp [hnot])]
      simp only [List.map_cons, List.sum_cons, Option.getD_some]
      have := sum_filter_append_le rest visited k
      omega
    · have hlk : lookupA ((k, inner) :: rest) current =
          lookupA rest current := by
        simp [lookupA, hk]
      rw [hlk]
      by_cases hv : k ∈ visited
      · rw [if_neg (show ¬((!decide (k ∈ visited ++ [current])) = true) by
            simp [hv]),
          if_neg (show ¬((!decide (k ∈ visited)) = true) by simp [hv])]
        exact ih
      · rw [if_pos (show (!decide (k ∈ visited ++ [current])) = true by
            simp [hv, hk]),
          if_pos (show (!decide (k ∈ visited)) = true by simp [hv])]
        simp only [List.map_cons, List.sum_cons]
        omega

theorem dijkstraLoop_completes (g : Graph α) (fuel : Nat) (st : DState α)
    (hfuel : st.pq.length + remDeg g st.visited < fuel) :
    (dijkstraLoop g fuel st).isSome := by
  induction fuel generalizing st with
  | zero => exact absurd hfuel (Nat.not_lt_zero _)
  | succ fuel ih =>
    unfold dijkstraLoop
    cases hpop : popMin st.pq with
    | none => simp
    | some pr =>
      obtain ⟨it, rest⟩ := pr
      dsimp only
      have hlen := popMin_length hpop
      by_cases hvis : it.Value ∈ st.visited
      · rw [if_pos hvis]
        apply ih
        show rest.length + remDeg g st.visited < fuel
        omega
      · rw [if_neg hvis]
        apply ih
        have hv2 := relaxNbrs_visited_eq it.Value
          ((lookupA g.Neighbors it.Value).getD [])
          { st with pq := rest, visited := st.visited ++ [it.Value] }
        have hq2 := relaxNbrs_pq_len it.Value
          ((lookupA g.Neighbors it.Value).getD [])
          { st with pq := rest, visited := st.visited ++ [it.Value] }
        have hrd := remDeg_step g.Neighbors st.visited it.Value hvis
        dsimp only at hq2 hv2
        rw [hv2]
        unfold remDeg at hfuel ⊢
        omega

/-- The fuel-bounded embedding of the Dijkstra loop always finishes
within dijkstraFuel pops: for every present start node Dijkstra returns
ok, never the FuelExhausted artifact, matching the unconditional
termination of the Go loop. -/
theorem dijkstra_never_exhausts (g : Graph α) (start : String)
    (hstart : (lookupA g.Nodes start).isSome) :
    ∃ dist prev, Dijkstra g start = .ok (dist, prev) := by
  unfold Dijkstra
  rw [if_pos hstart]
  have hc : (dijkstraLoop g (dijkstraFuel g)
      ⟨initDist g start, [], [], [⟨start, 0⟩]⟩).isSome := by
    apply dijkstraLoop_completes
    dsimp only
    have heq : remDeg g ([] : List String) =
        (g.Neighbors.map fun p => p.2.length).sum := by
      unfold remDeg
      rw [List.filter_eq_self.mpr (fun a _ => by simp)]
    rw [heq]
    unfold dijkstraFuel
    simp only [List.length_cons, List.length_nil]
    omega
  obtain ⟨st2, hst2⟩ := Option.isSome_iff_exists.mp hc
  rw [hst2]
  exact ⟨st2.dist, st2.prev, rfl⟩
